import Mathlib

/-!
# Verification of the GDB/MI client core (gdb-ts) against its specification

This file gives a shallow embedding, in Lean 4, of the core of the `vscdbg`
repository's GDB machine-interface client (the `GDB` class and its helpers) and
proves or refutes the frozen claims about it.

Strings are modelled as `List Char`.  JavaScript's `NaN` results of
`parseInt` are modelled as `none : Option Int`.  Streams are modelled as lists
in arrival order.  Promise settlement of a queued command is modelled as
`Option Outcome`: `none` means the promise is never settled.
-/

set_option maxHeartbeats 1000000

namespace Gdb

/-! ## Basic string helpers (on `List Char`) -/

/-- `beginsWith p l` : `p` is a prefix of `l` (element-wise comparison). -/
def beginsWith : List Char → List Char → Bool
  | [], _ => true
  | _ :: _, [] => false
  | a :: as, b :: bs => a = b && beginsWith as bs

/-- `hasSub needle hay` : `needle` occurs as a contiguous substring of `hay`. -/
def hasSub (needle : List Char) : List Char → Bool
  | [] => needle.isEmpty
  | c :: rest => beginsWith needle (c :: rest) || hasSub needle rest

/-- Digit recognition by code point (`'0'` = 48 … `'9'` = 57). -/
def isDigit (c : Char) : Bool := 48 ≤ c.toNat && c.toNat ≤ 57

/-- Numeric value of a digit character. -/
def digitVal (c : Char) : Nat := c.toNat - 48

/-- Maximal-munch digit-run parser: accumulates `acc * 10 + digit` and stops at
the first non-digit, returning the value and the unconsumed remainder.  This is
the digit-consuming core shared by the JSON number grammar and by JavaScript's
`parseInt`. -/
def parseNatAux (acc : Nat) : List Char → Nat × List Char
  | [] => (acc, [])
  | c :: rest => if isDigit c then parseNatAux (acc * 10 + digitVal c) rest else (acc, c :: rest)

/-- JavaScript whitespace accepted by `parseInt` (the forms relevant here). -/
def jsWs (c : Char) : Bool := c = ' ' || c = '\t' || c = '\n' || c = '\r'

/-- `toInt` from `gdb.ts` (`parseInt(str, 10)`): skip leading whitespace, an
optional sign, then a maximal digit run; `none` models `NaN` (no digits). -/
def toIntJS (s : List Char) : Option Int :=
  let t := s.dropWhile jsWs
  match t with
  | '-' :: r =>
    match r with
    | c :: _ => if isDigit c then some (-((parseNatAux 0 r).1 : Int)) else none
    | [] => none
  | '+' :: r =>
    match r with
    | c :: _ => if isDigit c then some ((parseNatAux 0 r).1 : Int) else none
    | [] => none
  | c :: _ => if isDigit c then some ((parseNatAux 0 t).1 : Int) else none
  | [] => none

/-! ## The JSON value model

The extension commands carry their results as JSON: the Python side emits
`json.dumps(...)` and the client decodes with `JSON.parse`.  JSON values are
modelled by a mutual inductive (arrays and objects carry their own spine so
that structural mutual recursion is available).  Numbers are modelled as
integers: the scripts' payloads (ids, pids, strings, lists of strings) are
integer/string shaped, and `JSON.stringify` agrees with this model on them. -/

mutual

inductive JVal where
  | null : JVal
  | bool (b : Bool) : JVal
  | num (n : Int) : JVal
  | str (s : List Char) : JVal
  | arr (xs : JArr) : JVal
  | obj (fs : JObj) : JVal

inductive JArr where
  | nil : JArr
  | cons (hd : JVal) (tl : JArr) : JArr

inductive JObj where
  | nil : JObj
  | cons (k : List Char) (v : JVal) (tl : JObj) : JObj

end

/-- Character of a decimal digit value. -/
def dchar (d : Nat) : Char := Char.ofNat (48 + d)

/-- Decimal digit characters of a natural number, most significant first. -/
def natDigits (n : Nat) : List Char :=
  if n = 0 then ['0'] else ((Nat.digits 10 n).reverse).map dchar

/-- Decimal rendering of an integer, as printed by `JSON.stringify`. -/
def intDigits (n : Int) : List Char :=
  if n < 0 then '-' :: natDigits n.natAbs else natDigits n.toNat

/-- `JSON.stringify` escaping of one string character (the characters the
scripts can produce; other control characters do not occur in the payloads). -/
def escJchar (c : Char) : List Char :=
  if c = '"' then ['\\', '"']
  else if c = '\\' then ['\\', '\\']
  else if c = '\n' then ['\\', 'n']
  else if c = '\r' then ['\\', 'r']
  else if c = '\t' then ['\\', 't']
  else [c]

/-- `JSON.stringify` of a string (quoted, escaped). -/
def strLit (s : List Char) : List Char :=
  '"' :: (s.flatMap escJchar) ++ ['"']

mutual

/-- `JSON.stringify` (compact form, as JavaScript prints with no spacer). -/
def stringify : JVal → List Char
  | .null => "null".data
  | .bool true => "true".data
  | .bool false => "false".data
  | .num n => intDigits n
  | .str s => strLit s
  | .arr xs => '[' :: stringifyItems xs ++ [']']
  | .obj fs => '{' :: stringifyFields fs ++ ['}']

/-- Array elements joined by `,`. -/
def stringifyItems : JArr → List Char
  | .nil => []
  | .cons v .nil => stringify v
  | .cons v (.cons w t) => stringify v ++ ',' :: stringifyItems (.cons w t)

/-- Object fields `"key":value` joined by `,`. -/
def stringifyFields : JObj → List Char
  | .nil => []
  | .cons k v .nil => strLit k ++ ':' :: stringify v
  | .cons k v (.cons k2 w t) => strLit k ++ ':' :: stringify v ++ ',' :: stringifyFields (.cons k2 w t)

end

/-- JSON whitespace. -/
def jWs (c : Char) : Bool := c = ' ' || c = '\t' || c = '\n' || c = '\r'

/-- Drop leading JSON whitespace. -/
def skipWs : List Char → List Char
  | [] => []
  | c :: r => if jWs c then skipWs r else c :: r

/-- Decode one short escape of a JSON string (`JSON.parse` semantics). -/
def escDecode (e : Char) : Option Char :=
  if e = '"' then some '"'
  else if e = '\\' then some '\\'
  else if e = '/' then some '/'
  else if e = 'b' then some (Char.ofNat 8)
  else if e = 'f' then some (Char.ofNat 12)
  else if e = 'n' then some '\n'
  else if e = 'r' then some '\r'
  else if e = 't' then some '\t'
  else none

/-- Hex digit value, `none` if not a hex digit. -/
def hexVal (c : Char) : Option Nat :=
  if 48 ≤ c.toNat && c.toNat ≤ 57 then some (c.toNat - 48)
  else if 97 ≤ c.toNat && c.toNat ≤ 102 then some (c.toNat - 87)
  else if 65 ≤ c.toNat && c.toNat ≤ 70 then some (c.toNat - 55)
  else none

/-- Body of a JSON string after the opening quote: returns the decoded
characters and the remainder after the closing quote.  The fuel argument only
serves termination (every step consumes input, so fuel `length` suffices). -/
def parseStrBody : Nat → List Char → Option (List Char × List Char)
  | _, [] => none
  | 0, _ :: _ => none
  | Nat.succ fuel, c :: rest =>
    if c = '"' then some ([], rest)
    else if c = '\\' then
      match rest with
      | [] => none
      | e :: rest2 =>
        if e = 'u' then
          match rest2 with
          | a :: b :: c2 :: d :: rest3 =>
            match hexVal a, hexVal b, hexVal c2, hexVal d with
            | some ha, some hb, some hc, some hd =>
              (parseStrBody fuel rest3).map
                (fun p => (Char.ofNat (ha * 4096 + hb * 256 + hc * 16 + hd) :: p.1, p.2))
            | _, _, _, _ => none
          | _ => none
        else
          match escDecode e with
          | some d => (parseStrBody fuel rest2).map (fun p => (d :: p.1, p.2))
          | none => none
    else (parseStrBody fuel rest).map (fun p => (c :: p.1, p.2))

/-- Unsigned digit run with at least one digit. -/
def parseNum : List Char → Option (Nat × List Char)
  | [] => none
  | c :: rest => if isDigit c then some (parseNatAux (digitVal c) rest) else none

/-- Whether a list starts with the given character. -/
def headIs (a : Char) : List Char → Bool
  | [] => false
  | c :: _ => c = a

/-- Whether a list starts with a decimal digit. -/
def headDigit : List Char → Bool
  | [] => false
  | c :: _ => isDigit c

mutual

/-- Recursive-descent JSON value parser (`JSON.parse` on the grammar fragment
`JSON.stringify` emits: literals, integers, strings, arrays, objects), with a
fuel argument for termination; every recursive call decreases the fuel.  On the
inputs considered, fuel `2 * length + 2` always suffices. -/
def parseVal : Nat → List Char → Option (JVal × List Char)
  | 0, _ => none
  | Nat.succ fuel, l =>
    match skipWs l with
    | [] => none
    | c :: r =>
      if c = 'n' then
        if beginsWith "ull".data r then some (.null, r.drop 3) else none
      else if c = 't' then
        if beginsWith "rue".data r then some (.bool true, r.drop 3) else none
      else if c = 'f' then
        if beginsWith "alse".data r then some (.bool false, r.drop 4) else none
      else if c = '"' then
        (parseStrBody r.length r).map (fun p => (.str p.1, p.2))
      else if c = '-' then
        (parseNum r).map (fun p => (.num (-(p.1 : Int)), p.2))
      else if c = '[' then
        if headIs ']' (skipWs r) then some (.arr .nil, (skipWs r).tail)
        else (parseItems fuel (skipWs r)).map (fun p => (.arr p.1, p.2))
      else if c = '{' then
        if headIs '}' (skipWs r) then some (.obj .nil, (skipWs r).tail)
        else (parseFields fuel (skipWs r)).map (fun p => (.obj p.1, p.2))
      else if isDigit c then
        (parseNum (c :: r)).map (fun p => (.num (p.1 : Int), p.2))
      else none

/-- One or more array elements, ending at `]`. -/
def parseItems : Nat → List Char → Option (JArr × List Char)
  | 0, _ => none
  | Nat.succ fuel, l =>
    match parseVal fuel l with
    | none => none
    | some (v, r) =>
      if headIs ',' (skipWs r) then
        (parseItems fuel ((skipWs r).tail)).map (fun p => (.cons v p.1, p.2))
      else if headIs ']' (skipWs r) then some (.cons v .nil, (skipWs r).tail)
      else none

/-- One or more object fields, ending at `}`. -/
def parseFields : Nat → List Char → Option (JObj × List Char)
  | 0, _ => none
  | Nat.succ fuel, l =>
    if headIs '"' (skipWs l) then
      match parseStrBody ((skipWs l).tail).length ((skipWs l).tail) with
      | none => none
      | some (k, r2) =>
        if headIs ':' (skipWs r2) then
          match parseVal fuel ((skipWs r2).tail) with
          | none => none
          | some (v, r4) =>
            if headIs ',' (skipWs r4) then
              (parseFields fuel ((skipWs r4).tail)).map (fun p => (.cons k v p.1, p.2))
            else if headIs '}' (skipWs r4) then some (.cons k v .nil, (skipWs r4).tail)
            else none
        else none
    else none

end

mutual

/-- Fuel bound sufficient for `parseVal` on the output of `stringify`
(verification infrastructure, not part of the embedded code). -/
def fneed : JVal → Nat
  | .null => 1
  | .bool _ => 1
  | .num _ => 1
  | .str _ => 1
  | .arr xs => 1 + fneedArr xs
  | .obj fs => 1 + fneedObj fs

/-- Fuel bound for `parseItems` (see `fneed`). -/
def fneedArr : JArr → Nat
  | .nil => 1
  | .cons v t => 1 + fneed v + fneedArr t

/-- Fuel bound for `parseFields` (see `fneed`). -/
def fneedObj : JObj → Nat
  | .nil => 1
  | .cons _ v t => 1 + fneed v + fneedObj t

end

/-- `JSON.parse`: the whole input must be one value (up to trailing
whitespace). -/
def jsonParse (l : List Char) : Option JVal :=
  match parseVal (2 * l.length + 2) l with
  | some (v, r) => if skipWs r = [] then some v else none
  | none => none

/-! ## Record payloads and the command queue / correlator

`GDB`'s constructor builds `results = stream.filter(result).zip(this._queue)`
and settles each zipped pair: error-class pairs reject with a `GDBError`,
non-error `mi` pairs resolve with the record's data, and non-error `cli` pairs
resolve, in the same order, from the console-decoded payload stream.  A queue
entry with no paired result is never settled (`Option.none` below). -/

/-- Object field lookup on a parsed record payload (JS property access). -/
def objLookup : JObj → List Char → Option JVal
  | .nil, _ => none
  | .cons k v t, key => if k = key then some v else objLookup t key

/-- `data.field` on a record payload: `none` models `undefined`. -/
def jget (v : JVal) (key : List Char) : Option JVal :=
  match v with
  | .obj fs => objLookup fs key
  | _ => none

/-- JavaScript string coercion of a payload value, as used by the template
literal `${data.msg}` and by `parseInt(data.code)`; `undefined` prints as
`"undefined"`.  (Array/object corner cases of JS `toString` beyond these do not
arise in result records.) -/
def coerceJS : Option JVal → List Char
  | none => "undefined".data
  | some .null => "null".data
  | some (.bool true) => "true".data
  | some (.bool false) => "false".data
  | some (.num n) => intDigits n
  | some (.str s) => s
  | some (.arr _) => []
  | some (.obj _) =>
    "[object Object]".data

/-- Which interpreter a queued command was submitted under (`"mi"` structured /
`"cli"` textual-extension). -/
inductive Interp where
  | mi : Interp
  | cli : Interp
deriving DecidableEq

/-- A pending-queue entry as written by `_exec`:
`{ cmd, interpreter, resolve, reject }` (the two callbacks are represented by
the eventual `Outcome`). -/
structure Pending where
  cmd : List Char
  interpreter : Interp
deriving DecidableEq

/-- A result record from the `results` branch: its class (`msg.state`) and its
parsed payload (`msg.data`). -/
structure RRec where
  state : List Char
  data : JVal

/-- The `GDBError` value built in the error branch of the correlator:
`new GDBError(cmd, text, toInt(data.code))`. -/
structure GDBErrorV where
  command : List Char
  message : List Char
  code : Option Int

/-- How a queued command's promise is settled. -/
inductive Outcome where
  | resolved (v : JVal) : Outcome
  | rejected (e : GDBErrorV) : Outcome

/-- The error text `` `Error while executing "${cmd}". ${data.msg}` ``. -/
def errText (cmd : List Char) (data : JVal) : List Char :=
  "Error while executing \"".data ++ cmd ++ "\". ".data ++
    coerceJS (jget data "msg".data)

/-- The `GDBError` of an error-class pair. -/
def errOf (p : Pending) (r : RRec) : GDBErrorV :=
  { command := p.cmd
    message := errText p.cmd r.data
    code := toIntJS (coerceJS (jget r.data "code".data)) }

/-- Settle the element-wise (zip) pairs of result records and queue entries, in
arrival order, consuming the console-decoded payload stream `cli` for
non-error textual pairs.  A textual pair with no decoded payload available is
never settled. -/
def settlePairs : List (RRec × Pending) → List JVal → List (Option Outcome)
  | [], _ => []
  | (r, p) :: rest, cli =>
    if r.state = "error".data then
      some (.rejected (errOf p r)) :: settlePairs rest cli
    else if p.interpreter = .mi then
      some (.resolved r.data) :: settlePairs rest cli
    else
      match cli with
      | c :: cs => some (.resolved c) :: settlePairs rest cs
      | [] => none :: settlePairs rest []

/-- The full settlement of a queue: results are zipped element-wise with queue
entries; entries beyond the last arriving result are never settled. -/
def correlate (rs : List RRec) (cli : List JVal) (q : List Pending) : List (Option Outcome) :=
  settlePairs (rs.zip q) cli ++ List.replicate (q.length - rs.length) none

/-! ## The CLI output decoder and the cmd-sentinel wire format

The constructor scans every console record with
`/<gdbjs:cmd:[a-z-]+ (.*?) [a-z-]+:cmd:gdbjs>/` and `JSON.parse`s the captured
group.  The matcher below implements exactly that pattern's backtracking
semantics: leftmost starting position; `[a-z-]+` before a literal that is not
in the class is maximal-munch (equivalent to greedy with backtracking); the
lazy `(.*?)` takes the shortest extent at which the rest of the pattern
matches; `.` does not cross `\n`/`\r`. -/

/-- The character class `[a-z-]`. -/
def nameChar (c : Char) : Bool := (97 ≤ c.toNat && c.toNat ≤ 122) || c = '-'

/-- The literal ` [a-z-]+:cmd:gdbjs>` that must follow the captured group. -/
def cmdEnd : List Char → Bool
  | [] => false
  | c :: rest =>
    c = ' ' && (!(rest.takeWhile nameChar).isEmpty &&
      beginsWith ":cmd:gdbjs>".data (rest.dropWhile nameChar))

/-- The lazy capture `(.*?)`: extend one (non-newline) character at a time,
stopping at the first point where the tail of the pattern matches. -/
def lazyCapture : Nat → List Char → List Char → Option (List Char)
  | 0, acc, l => if cmdEnd l then some acc.reverse else none
  | Nat.succ fuel, acc, l =>
    if cmdEnd l then some acc.reverse
    else
      match l with
      | [] => none
      | c :: rest =>
        if c = '\n' || c = '\r' then none else lazyCapture fuel (c :: acc) rest

/-- Try the cmd-sentinel pattern at the start of `l`; on success return the
captured group. -/
def cmdMatchAt (l : List Char) : Option (List Char) :=
  if beginsWith "<gdbjs:cmd:".data l then
    let r := l.drop 11
    if (r.takeWhile nameChar).isEmpty then none
    else
      let r2 := r.dropWhile nameChar
      if headIs ' ' r2 then lazyCapture r2.tail.length [] r2.tail else none
  else none

/-- Leftmost application of the cmd-sentinel pattern (`RegExp.exec`), returning
the captured group. -/
def cmdExtract : List Char → Option (List Char)
  | [] => none
  | c :: rest =>
    match cmdMatchAt (c :: rest) with
    | some g => some g
    | none => cmdExtract rest

/-- The CLI output decoder applied to one console record: regex extraction
followed by `JSON.parse` of the captured group. -/
def decodeCmdRecord (record : List Char) : Option JVal :=
  match cmdExtract record with
  | some g => jsonParse g
  | none => none

/-- The cmd-sentinel wire line emitted by the Python `BaseCommand.invoke`:
`'<gdbjs:cmd:{0} {1} {0}:cmd:gdbjs>'.format(name, json)`. -/
def wrapCmd (name payload : List Char) : List Char :=
  "<gdbjs:cmd:".data ++ name ++
    ' ' :: payload ++ ' ' :: name ++ ":cmd:gdbjs>".data

/-! ## The execution serializer (`_sync`)

`_sync(task)` chains `this._lock = this._lock.then(task, task)`.  Operation
`k+1`'s body is therefore scheduled exactly when operation `k`'s chain promise
settles, which happens when `k`'s body has settled (fulfilled or rejected).
The abstract small-step model: `ns` gives each submitted operation's number of
atomic sub-steps (at least one — settling itself is a step), a state maps each
operation to its number of completed sub-steps, and a scheduler may perform a
sub-step of operation `k` only when `k` still has steps left and, per the
promise chain, its predecessor `k-1` has fully settled.  A schedule is any
interleaving the chain admits. -/

/-- Perform one sub-step of operation `k`. -/
def stepSt (st : Nat → Nat) (k : Nat) : Nat → Nat :=
  fun j => if j = k then st j + 1 else st j

/-- Whether the chain built by `_sync` lets operation `k` perform a sub-step in
state `st`: `k` is a submitted operation with steps remaining, and its
predecessor's body (if any) has fully settled. -/
def canStep (ns : List Nat) (st : Nat → Nat) (k : Nat) : Bool :=
  decide (k < ns.length) && decide (st k < ns.getD k 0) &&
    (decide (k = 0) || decide (st (k - 1) = ns.getD (k - 1) 0))

/-- A schedule (list of operation indices, one per performed sub-step) is
valid from `st` when every event is permitted by the chain at its time. -/
def validFrom (ns : List Nat) (st : Nat → Nat) : List Nat → Bool
  | [] => true
  | k :: rest => canStep ns st k && validFrom ns (stepSt st k) rest

/-- A valid schedule from the initial (nothing run) state. -/
def validSched (ns : List Nat) (s : List Nat) : Bool :=
  validFrom ns (fun _ => 0) s

/-- The state after running a schedule. -/
def runSt (st : Nat → Nat) : List Nat → (Nat → Nat)
  | [] => st
  | k :: rest => runSt (stepSt st k) rest

/-! ## Scope resolution and command traces (`_execMI`, `_execCMD`,
`_preserveThread`)

Each private helper is modelled by the sequence of commands it hands to
`_exec`, each tagged by interpreter, plus its returned value.  The environment
supplies the response of the `gdbjs-thread` query used by `_preserveThread`
(the currently selected thread, if any) and the response of any executed
command. -/

/-- One command handed to `_exec`: interpreter and command text (before the
`-interpreter-exec console "gdbjs-…"` wire framing `_exec` adds to cli
commands). -/
structure SentC where
  interp : Interp
  text : List Char
deriving DecidableEq

/-- Environment: the currently selected thread reported by the `thread`
extension command, and the value each executed command resolves with. -/
structure Env (V : Type) where
  curThread : Option Int
  resp : Interp → List Char → V

/-- Decimal text of an integer id (JS number-to-string interpolation). -/
def intStr (n : Int) : List Char := intDigits n

/-- The command issued by `_selectThread`: `-thread-select <id>` (MI). -/
def selThreadC (t : Int) : SentC := ⟨.mi, "-thread-select ".data ++ intStr t⟩

/-- The command issued by `_selectThreadGroup`: `exec inferior <id>` (cli). -/
def selGroupC (g : Int) : SentC := ⟨.cli, "exec inferior ".data ++ intStr g⟩

/-- The `gdbjs-thread` query issued by `_currentThread` (cli). -/
def curThreadC : SentC := ⟨.cli, "thread".data⟩

/-- `_preserveThread(task)`: query the current thread, run the task, then
re-select the previously selected thread — only if one was selected. -/
def preserveThread (V : Type) (env : Env V) (task : List SentC × V) : List SentC × V :=
  (curThreadC :: task.1 ++
      (match env.curThread with
       | some t => [selThreadC t]
       | none => []),
    task.2)

/-- The command scope: `null`, a `Thread`, or a `ThreadGroup` (the `instanceof`
dispatch of `_execMI`/`_execCMD` as a closed variant). -/
inductive ScopeV where
  | noScope : ScopeV
  | thread (id : Int) : ScopeV
  | group (id : Int) : ScopeV

/-- The split `/([^ ]+)( .*|)/.exec(cmd)` of an MI command into its name and
its option tail (the regex finds the leftmost non-space run; the tail is empty
or starts with a space). -/
def splitCmd (cmd : List Char) : List Char × List Char :=
  let t := cmd.dropWhile (fun c => c = ' ')
  (t.takeWhile (fun c => c ≠ ' '), t.dropWhile (fun c => c ≠ ' '))

/-- `_execMI cmd scope`: thread scope decorates the command with an inline
`--thread <id>` option; group scope decorates with `--thread-group i<id>` and
wraps with `_preserveThread` (the option switches the selected thread); no
scope sends the command as is. -/
def execMIRun (V : Type) (env : Env V) (cmd : List Char) (scope : ScopeV) : List SentC × V :=
  let nm := (splitCmd cmd).1
  let opts := (splitCmd cmd).2
  match scope with
  | .thread t =>
    let c := nm ++ " --thread ".data ++ intStr t ++ ' ' :: opts
    ([⟨.mi, c⟩], env.resp .mi c)
  | .group g =>
    let c := nm ++ " --thread-group i".data ++ intStr g ++ ' ' :: opts
    preserveThread V env ([⟨.mi, c⟩], env.resp .mi c)
  | .noScope => ([⟨.mi, cmd⟩], env.resp .mi cmd)

/-- `_execCMD cmd scope`: thread scope selects the thread, runs, and restores
via `_preserveThread`; group scope selects the group (inferior), runs, and
restores the thread via `_preserveThread`; no scope runs directly. -/
def execCMDRun (V : Type) (env : Env V) (cmd : List Char) (scope : ScopeV) : List SentC × V :=
  match scope with
  | .thread t => preserveThread V env ([selThreadC t, ⟨.cli, cmd⟩], env.resp .cli cmd)
  | .group g => preserveThread V env ([selGroupC g, ⟨.cli, cmd⟩], env.resp .cli cmd)
  | .noScope => ([⟨.cli, cmd⟩], env.resp .cli cmd)

/-! ## The scripting bridge (`init` and `escape`) -/

/-- Replace every occurrence of the character `pat` by the string `rep`
(JavaScript `str.replace(/pat/g, rep)` for a single-character pattern). -/
def replaceAll (pat : Char) (rep : List Char) : List Char → List Char
  | [] => []
  | c :: rest => (if c = pat then rep else [c]) ++ replaceAll pat rep rest

/-- `escape` from `gdb.ts`: five sequential global replacements — backslash,
newline, carriage return, tab, double quote — in that order. -/
def escapePy (s : List Char) : List Char :=
  replaceAll '"' "\\\"".data
    (replaceAll '\t' "\\t".data
      (replaceAll '\r' "\\r".data
        (replaceAll '\n' "\\n".data
          (replaceAll '\\' "\\\\".data s))))

/-- The eight embedded Python script assets, by name.  Their texts are the
string constants of `scripts/scripts.ts`; the model abstracts the texts as a
`content` assignment since the claims concern order, wrapping and abort
behaviour, not the Python sources themselves. -/
inductive ScriptId where
  | basePy : ScriptId
  | contextPy : ScriptId
  | eventPy : ScriptId
  | execPy : ScriptId
  | groupPy : ScriptId
  | objfilePy : ScriptId
  | sourcesPy : ScriptId
  | threadPy : ScriptId
deriving DecidableEq

/-- The fixed order of the `scripts` array in `GDB.init` (`base_py` first). -/
def scriptsOrder : List ScriptId :=
  [.basePy, .contextPy, .eventPy, .execPy, .groupPy, .objfilePy, .sourcesPy, .threadPy]

/-- The single MI command wrapping one script:
`` `-interpreter-exec console "python\n${escape(s)}"` `` (the `\n` is the
two-character escape sequence, unescaped again by GDB's MI reader). -/
def wrapScript (s : List Char) : List Char :=
  "-interpreter-exec console \"python\\n".data ++ escapePy s ++ ['"']

/-- `GDB.init`'s sequential loop: transmit each wrapped script in order; `ok i`
tells whether the `i`-th transmitted command resolves; a rejection stops the
loop (the `await` re-throws) and fails initialization. -/
def initRun (content : ScriptId → List Char) (ok : Nat → Bool) :
    Nat → List ScriptId → List (List Char) × Bool
  | _, [] => ([], true)
  | i, s :: rest =>
    let c := wrapScript (content s)
    if ok i then
      let r := initRun content ok (i + 1) rest
      (c :: r.1, r.2)
    else ([c], false)

/-- `GDB.init`: run the fixed script list from the first command. -/
def initGDB (content : ScriptId → List Char) (ok : Nat → Bool) : List (List Char) × Bool :=
  initRun content ok 0 scriptsOrder

/-! ## The `stopped` event deriver -/

/-- The `frame` sub-object of a `*stopped` record (fields may be absent). -/
structure FrameData where
  fullname : Option (List Char)
  line : Option (List Char)
  func : Option (List Char)

/-- The payload of an exec-class `stopped` record, restricted to the fields
the handler reads. -/
structure StopData where
  reason : Option (List Char)
  threadId : Option (List Char)
  frame : Option FrameData
  bkptno : Option (List Char)

/-- A `Frame` object as built by `new Frame({file, line, func})`. -/
structure FrameV where
  file : Option (List Char)
  line : Option Int
  func : Option (List Char)
  level : Option Int

/-- A `Thread` object as built by `new Thread(id, {frame, status})`. -/
structure ThreadV where
  id : Option Int
  status : Option (List Char)
  group : Option Int
  frame : Option FrameV

/-- A `Breakpoint` object as built by `new Breakpoint(id)`. -/
structure BreakpointV where
  id : Option Int

/-- The payload of the emitted `stopped` event. -/
structure StoppedEvent where
  reason : Option (List Char)
  thread : Option ThreadV
  breakpoint : Option BreakpointV

/-- JS string truthiness: a present, non-empty string. -/
def truthyStr : Option (List Char) → Bool
  | some s => !s.isEmpty
  | none => false

/-- JS string coercion for `toInt` of a possibly-absent record field
(`undefined` coerces to the string `"undefined"`). -/
def fieldStr : Option (List Char) → List Char
  | some s => s
  | none => "undefined".data

/-- The constructor's `stopped` handler: emits `{reason, thread?, breakpoint?}`.
`none` models the `TypeError` of reading `data.frame.fullname` when the record
has a (truthy) `thread-id` but no `frame`. -/
def stoppedEvent (d : StopData) : Option StoppedEvent :=
  let bk : Option BreakpointV :=
    if d.reason = some "breakpoint-hit".data then
      some ⟨toIntJS (fieldStr d.bkptno)⟩
    else none
  if truthyStr d.threadId then
    match d.frame with
    | none => none
    | some f =>
      some
        { reason := d.reason
          thread :=
            some
              { id := toIntJS (fieldStr d.threadId)
                status := some "stopped".data
                group := none
                frame :=
                  some
                    { file := f.fullname
                      line := toIntJS (fieldStr f.line)
                      func := f.func
                      level := none } }
          breakpoint := bk }
  else some { reason := d.reason, thread := none, breakpoint := bk }

/-! ## The public console stream (`consoleStream`)

Every console record's text is mapped through
`msg.data.replace(/<gdbjs:.*?:gdbjs>/g, "")`: non-overlapping leftmost matches
of the sentinel pattern, each of the shortest extent (`.` not crossing a
newline), are removed. -/

/-- Scan for the closing `:gdbjs>` of a sentinel: returns the remainder after
the first terminator, failing on a newline or the end of the record (the lazy
`.*?` cannot cross them). -/
def scanSentEnd : Nat → List Char → Option (List Char)
  | 0, l => if beginsWith ":gdbjs>".data l then some (l.drop 7) else none
  | Nat.succ fuel, l =>
    if beginsWith ":gdbjs>".data l then some (l.drop 7)
    else
      match l with
      | [] => none
      | c :: rest => if c = '\n' || c = '\r' then none else scanSentEnd fuel rest

/-- Try the sentinel pattern `<gdbjs:.*?:gdbjs>` at the start of `l`; on a
match, return the remainder after the match. -/
def matchSent (l : List Char) : Option (List Char) :=
  if beginsWith "<gdbjs:".data l then scanSentEnd l.length (l.drop 7) else none

/-- Left-to-right global replacement by the empty string: keep a character
when no match starts at it, otherwise drop the whole (shortest) match and
continue after it.  Fuel `length` suffices since every step consumes input. -/
def removeSentinelsAux : Nat → List Char → List Char
  | 0, l => l
  | Nat.succ _, [] => []
  | Nat.succ fuel, c :: rest =>
    match matchSent (c :: rest) with
    | some after => removeSentinelsAux fuel after
    | none => c :: removeSentinelsAux fuel rest

/-- `msg.data.replace(/<gdbjs:.*?:gdbjs>/g, "")` — the map applied to every
record on the public `consoleStream`. -/
def removeSentinels (l : List Char) : List Char :=
  removeSentinelsAux l.length l

/-- Whether a sentinel-pattern match occurs anywhere in the text. -/
def hasSentinel : List Char → Bool
  | [] => false
  | c :: rest => (matchSent (c :: rest)).isSome || hasSentinel rest

/-! ## Generic helper lemmas -/

theorem beginsWith_append_self (p : List Char) : ∀ x, beginsWith p (p ++ x) = true := by
  induction p with
  | nil => intro x; rfl
  | cons c cs ih => intro x; simp [beginsWith, ih x]

theorem hasSub_of_beginsWith (p l : List Char) (h : beginsWith p l = true) :
    ∀ x, hasSub p (x ++ l) = true := by
  intro x
  induction x with
  | nil =>
    cases l with
    | nil =>
      cases p with
      | nil => rfl
      | cons a as => simp [beginsWith] at h
    | cons c cs => simp [hasSub, h]
  | cons a as ih => simp [hasSub, ih]

theorem hasSub_cons (p : List Char) (c : Char) (l : List Char) (h : hasSub p l = true) :
    hasSub p (c :: l) = true := by
  simp [hasSub, h]

theorem takeWhile_append_of_sat (P : Char → Bool) (a : List Char) (ha : ∀ c ∈ a, P c = true) :
    ∀ b0 bs, P b0 = false →
      (a ++ b0 :: bs).takeWhile P = a ∧ (a ++ b0 :: bs).dropWhile P = b0 :: bs := by
  induction a with
  | nil => intro b0 bs hb; simp [List.takeWhile, List.dropWhile, hb]
  | cons c cs ih =>
    intro b0 bs hb
    have hc : P c = true := ha c (by simp)
    have hcs : ∀ x ∈ cs, P x = true := fun x hx => ha x (by simp [hx])
    have := ih hcs b0 bs hb
    simp [List.takeWhile, List.dropWhile, hc, this.1, this.2]

/-! ## C1: FIFO pairing of results with the pending queue -/

theorem length_settlePairs (pairs : List (RRec × Pending)) :
    ∀ cli, (settlePairs pairs cli).length = pairs.length := by
  induction pairs with
  | nil => intro cli; rfl
  | cons hd tl ih =>
    intro cli
    obtain ⟨r, p⟩ := hd
    by_cases h1 : r.state = "error".data
    · simp [settlePairs, h1, ih]
    · by_cases h2 : p.interpreter = Interp.mi
      · simp [settlePairs, h1, h2, ih]
      · cases cli <;> simp [settlePairs, h1, h2, ih]

theorem settlePairs_mi (pairs : List (RRec × Pending)) :
    ∀ (cli : List JVal) (i : Nat) (r : RRec) (p : Pending),
      pairs[i]? = some (r, p) → r.state ≠ "error".data →
      p.interpreter = Interp.mi →
      (settlePairs pairs cli)[i]? = some (some (.resolved r.data)) := by
  induction pairs with
  | nil => intro cli i r p h; simp at h
  | cons hd tl ih =>
    intro cli i r p h herr hmi
    obtain ⟨r0, p0⟩ := hd
    cases i with
    | zero =>
      simp at h
      obtain ⟨hr, hp⟩ := h
      subst hr; subst hp
      simp [settlePairs, herr, hmi]
    | succ i =>
      simp at h
      by_cases h1 : r0.state = "error".data
      · simpa [settlePairs, h1] using ih cli i r p h herr hmi
      · by_cases h2 : p0.interpreter = Interp.mi
        · simpa [settlePairs, h1, h2] using ih cli i r p h herr hmi
        · cases cli with
          | nil => simpa [settlePairs, h1, h2] using ih [] i r p h herr hmi
          | cons c cs => simpa [settlePairs, h1, h2] using ih cs i r p h herr hmi

/-- Claim C1: results are paired element-wise, in arrival order, with the
pending queue — the `i`-th arriving result record is paired with the `i`-th
submitted entry — and a command submitted in structured (`mi`) form whose
paired result is not error-class resolves with that result's decoded
payload. -/
theorem C1_fifo_pairing (rs : List RRec) (cli : List JVal) (q : List Pending) (i : Nat)
    (r : RRec) (p : Pending) (hr : rs[i]? = some r) (hp : q[i]? = some p)
    (herr : r.state ≠ "error".data) (hmi : p.interpreter = Interp.mi) :
    (rs.zip q)[i]? = some (r, p) ∧
      (correlate rs cli q)[i]? = some (some (.resolved r.data)) := by
  have hzip : (rs.zip q)[i]? = some (r, p) := by
    rw [List.getElem?_zip_eq_some]
    exact ⟨hr, hp⟩
  refine ⟨hzip, ?_⟩
  have hset := settlePairs_mi (rs.zip q) cli i r p hzip herr hmi
  have hlen : i < (settlePairs (rs.zip q) cli).length := by
    rw [length_settlePairs]
    by_contra hnot
    rw [List.getElem?_eq_none_iff.mpr (by omega)] at hzip
    exact Option.noConfusion hzip
  unfold correlate
  rw [List.getElem?_append, if_pos hlen]
  exact hset

/-- Witness for C1 at a concrete input. -/
theorem C1_fifo_pairing_witness :
    (([⟨"done".data, JVal.null⟩] : List RRec).zip
        ([⟨"-exec-step".data, Interp.mi⟩] : List Pending))[0]? =
        some (⟨"done".data, JVal.null⟩, ⟨"-exec-step".data, Interp.mi⟩) ∧
      (correlate [⟨"done".data, JVal.null⟩] [] [⟨"-exec-step".data, Interp.mi⟩])[0]? =
        some (some (.resolved JVal.null)) :=
  C1_fifo_pairing [⟨"done".data, JVal.null⟩] [] [⟨"-exec-step".data, Interp.mi⟩] 0
    ⟨"done".data, JVal.null⟩ ⟨"-exec-step".data, Interp.mi⟩ rfl rfl (by decide) rfl

/-! ## C3: error-class results reject the correlated operation -/

/-- Counterexample for C3 as stated: with one outstanding MI command followed
by `^error,msg="No symbol \"x\" in current context.",code="undefined-command"`,
the correlated operation is indeed rejected with the command text and message,
but the error's `code` is `toInt("undefined-command")`, i.e. `NaN` (modelled
`none`): no numeric code, and in particular not `undefined-command`. -/
theorem C3_counterexample :
    correlate
        [⟨"error".data,
          .obj (.cons "msg".data (.str "No symbol \"x\" in current context.".data)
            (.cons "code".data (.str "undefined-command".data) .nil))⟩]
        [] [⟨"whatis x".data, Interp.mi⟩] =
      [some (.rejected
        { command := "whatis x".data
          message := "Error while executing \"whatis x\". No symbol \"x\" in current context.".data
          code := none })] := by
  rfl

theorem settlePairs_err (pairs : List (RRec × Pending)) :
    ∀ (cli : List JVal) (i : Nat) (r : RRec) (p : Pending),
      pairs[i]? = some (r, p) → r.state = "error".data →
      (settlePairs pairs cli)[i]? = some (some (.rejected (errOf p r))) := by
  induction pairs with
  | nil => intro cli i r p h; simp at h
  | cons hd tl ih =>
    intro cli i r p h herr
    obtain ⟨r0, p0⟩ := hd
    cases i with
    | zero =>
      simp at h
      obtain ⟨hr, hp⟩ := h
      subst hr; subst hp
      simp [settlePairs, herr]
    | succ i =>
      simp at h
      by_cases h1 : r0.state = "error".data
      · simpa [settlePairs, h1] using ih cli i r p h herr
      · by_cases h2 : p0.interpreter = Interp.mi
        · simpa [settlePairs, h1, h2] using ih cli i r p h herr
        · cases cli with
          | nil => simpa [settlePairs, h1, h2] using ih [] i r p h herr
          | cons c cs => simpa [settlePairs, h1, h2] using ih cs i r p h herr

/-- C3 as amended: a pending command whose paired result record is error-class
is rejected — exactly that one, at its own queue position — with a `GDBError`
carrying the command text, the message
`Error while executing "<cmd>". <msg>`, and `code = parseInt(data.code)`,
which is a number exactly when the payload's `code` is numeric text and `NaN`
(modelled `none`) otherwise — so `code="undefined-command"` yields no numeric
code. -/
theorem C3_error_rejection (rs : List RRec) (cli : List JVal) (q : List Pending) (i : Nat)
    (r : RRec) (p : Pending) (hr : rs[i]? = some r) (hp : q[i]? = some p)
    (herr : r.state = "error".data) :
    (correlate rs cli q)[i]? =
      some (some (.rejected
        { command := p.cmd
          message := errText p.cmd r.data
          code := toIntJS (coerceJS (jget r.data "code".data)) })) := by
  have hzip : (rs.zip q)[i]? = some (r, p) := by
    rw [List.getElem?_zip_eq_some]
    exact ⟨hr, hp⟩
  have hset := settlePairs_err (rs.zip q) cli i r p hzip herr
  have hlen : i < (settlePairs (rs.zip q) cli).length := by
    rw [length_settlePairs]
    by_contra hnot
    rw [List.getElem?_eq_none_iff.mpr (by omega)] at hzip
    exact Option.noConfusion hzip
  unfold correlate
  rw [List.getElem?_append, if_pos hlen]
  exact hset

/-- Witness for the amended C3 at the `^error` example. -/
theorem C3_error_rejection_witness :
    (correlate
        [⟨"error".data,
          .obj (.cons "msg".data (.str "No symbol \"x\" in current context.".data)
            (.cons "code".data (.str "undefined-command".data) .nil))⟩]
        [] [⟨"whatis x".data, Interp.mi⟩])[0]? =
      some (some (.rejected
        { command := "whatis x".data
          message := errText "whatis x".data
            (.obj (.cons "msg".data (.str "No symbol \"x\" in current context.".data)
              (.cons "code".data (.str "undefined-command".data) .nil)))
          code := toIntJS (coerceJS (jget
            (.obj (.cons "msg".data (.str "No symbol \"x\" in current context.".data)
              (.cons "code".data (.str "undefined-command".data) .nil))) "code".data)) })) :=
  C3_error_rejection
    [⟨"error".data,
      .obj (.cons "msg".data (.str "No symbol \"x\" in current context.".data)
        (.cons "code".data (.str "undefined-command".data) .nil))⟩]
    [] [⟨"whatis x".data, Interp.mi⟩] 0 _ _ rfl rfl rfl

/-! ## C5: pending commands on channel termination -/

/-- C5 evaluation: when the channel terminates with a command still pending
(no further result records arrive), the correlator settles nothing — the
pending entry's outcome is `none` (its promise is neither resolved nor
rejected), contradicting the requirement that every still-pending command be
force-rejected. -/
theorem C5_pending_unsettled_on_termination :
    correlate [] [] [⟨"-exec-run".data, Interp.mi⟩] = [none] := by
  rfl

/-! ## C2: the execution serializer -/

theorem canStep_spec {ns : List Nat} {st : Nat → Nat} {k : Nat} (h : canStep ns st k = true) :
    k < ns.length ∧ st k < ns.getD k 0 ∧ (k = 0 ∨ st (k - 1) = ns.getD (k - 1) 0) := by
  have h2 : (k < ns.length ∧ st k < ns.getD k 0) ∧
      (k = 0 ∨ st (k - 1) = ns.getD (k - 1) 0) := by
    simpa [canStep, Bool.and_eq_true, Bool.or_eq_true, decide_eq_true_eq] using h
  exact ⟨h2.1.1, h2.1.2, h2.2⟩

theorem runSt_append (x : List Nat) : ∀ (y : List Nat) (st : Nat → Nat),
    runSt st (x ++ y) = runSt (runSt st x) y := by
  induction x with
  | nil => intro y st; rfl
  | cons k rest ih => intro y st; simp [runSt, ih]

theorem runSt_mono (s : List Nat) : ∀ (st : Nat → Nat) (j : Nat), st j ≤ runSt st s j := by
  induction s with
  | nil => intro st j; exact le_refl _
  | cons k rest ih =>
    intro st j
    have h1 : st j ≤ stepSt st k j := by unfold stepSt; split <;> omega
    exact le_trans h1 (ih (stepSt st k) j)

theorem inv_step (ns : List Nat) (st : Nat → Nat) (k : Nat)
    (hpos : ∀ m, m < ns.length → ns.getD m 0 ≠ 0)
    (hc : canStep ns st k = true)
    (hinv : ∀ a, 1 ≤ st a → ∀ j, j < a → st j = ns.getD j 0) :
    ∀ a, 1 ≤ stepSt st k a → ∀ j, j < a → stepSt st k j = ns.getD j 0 := by
  obtain ⟨hk, hlt, hpre⟩ := canStep_spec hc
  intro a ha j hj
  by_cases hak : a = k
  · subst hak
    have hall : ∀ m, m < a → st m = ns.getD m 0 := by
      intro m hm
      cases hpre with
      | inl h0 => omega
      | inr hk1 =>
        have hk1pos : 1 ≤ st (a - 1) := by
          have := hpos (a - 1) (by omega)
          omega
        rcases Nat.lt_or_ge m (a - 1) with hlt2 | hge
        · exact hinv (a - 1) hk1pos m hlt2
        · have hmeq : m = a - 1 := by omega
          subst hmeq
          exact hk1
    have hj2 : j ≠ a := by omega
    simpa [stepSt, hj2] using hall j hj
  · have ha' : 1 ≤ st a := by simpa [stepSt, hak] using ha
    by_cases hjk : j = k
    · subst hjk
      have := hinv a ha' j hj
      omega
    · simpa [stepSt, hjk] using hinv a ha' j hj

theorem validFrom_inv (ns : List Nat)
    (hpos : ∀ m, m < ns.length → ns.getD m 0 ≠ 0) :
    ∀ (s : List Nat) (st : Nat → Nat), validFrom ns st s = true →
      (∀ a, 1 ≤ st a → ∀ j, j < a → st j = ns.getD j 0) →
      ∀ a, 1 ≤ runSt st s a → ∀ j, j < a → runSt st s j = ns.getD j 0 := by
  intro s
  induction s with
  | nil => intro st _ hinv; exact hinv
  | cons k rest ih =>
    intro st hv hinv
    rw [validFrom, Bool.and_eq_true] at hv
    exact ih (stepSt st k) hv.2 (inv_step ns st k hpos hv.1 hinv)

theorem validFrom_canStep (ns : List Nat) :
    ∀ (s : List Nat) (st : Nat → Nat), validFrom ns st s = true →
      ∀ i, i < s.length → canStep ns (runSt st (s.take i)) (s.getD i 0) = true := by
  intro s
  induction s with
  | nil => intro st _ i hi; simp at hi
  | cons k rest ih =>
    intro st hv i hi
    rw [validFrom, Bool.and_eq_true] at hv
    cases i with
    | zero => simpa [runSt] using hv.1
    | succ i =>
      have := ih (stepSt st k) hv.2 i (by simpa using hi)
      simpa [runSt, List.take_succ_cons, List.getD_cons_succ] using this

theorem validFrom_take (ns : List Nat) :
    ∀ (s : List Nat) (st : Nat → Nat) (i : Nat), validFrom ns st s = true →
      validFrom ns st (s.take i) = true := by
  intro s
  induction s with
  | nil => intro st i _; simp [validFrom]
  | cons k rest ih =>
    intro st i hv
    rw [validFrom, Bool.and_eq_true] at hv
    cases i with
    | zero => simp [validFrom]
    | succ i =>
      rw [List.take_succ_cons, validFrom, Bool.and_eq_true]
      exact ⟨hv.1, ih (stepSt st k) i hv.2⟩

/-- Claim C2: under the `_sync` promise chain, operation `k+1`'s body cannot
begin until operation `k`'s body has settled; hence in every schedule the
chain admits, the sub-steps of distinct operations never interleave — the
schedule is monotone in the operation index — and therefore completion order
equals submission order. -/
theorem C2_serializer_no_interleaving (ns s : List Nat) (hv : validSched ns s = true)
    (hpos : ∀ k, k < ns.length → ns.getD k 0 ≠ 0) :
    ∀ p q, p < q → q < s.length → s.getD p 0 ≤ s.getD q 0 := by
  intro p q hpq hq
  by_contra hgt
  push_neg at hgt
  have hcq := validFrom_canStep ns s (fun _ => 0) hv q hq
  have htake : s.take (p + 1) = s.take p ++ [s.getD p 0] := by
    rw [List.take_succ]
    congr 1
    rw [List.getD_eq_getElem?_getD, List.getElem?_eq_getElem (by omega)]
    rfl
  have hvpre : validFrom ns (fun _ => 0) (s.take (p + 1)) = true :=
    validFrom_take ns s (fun _ => 0) (p + 1) hv
  have hinv1 := validFrom_inv ns hpos (s.take (p + 1)) (fun _ => 0) hvpre
    (by intro a ha; simp at ha)
  have hb1 : 1 ≤ runSt (fun _ => 0) (s.take (p + 1)) (s.getD p 0) := by
    rw [htake, runSt_append]
    simp [runSt, stepSt]
  have ha_done := hinv1 (s.getD p 0) hb1 (s.getD q 0) hgt
  have hmono : runSt (fun _ => 0) (s.take (p + 1)) (s.getD q 0) ≤
      runSt (fun _ => 0) (s.take q) (s.getD q 0) := by
    have hsplit : s.take q = s.take (p + 1) ++ (s.drop (p + 1)).take (q - (p + 1)) := by
      conv_lhs => rw [show q = (p + 1) + (q - (p + 1)) by omega]
      rw [List.take_add]
    rw [hsplit, runSt_append]
    exact runSt_mono _ _ _
  obtain ⟨_, hlt, _⟩ := canStep_spec hcq
  omega

/-- Witness for C2: the valid schedule `[0,0,1]` of two operations with 2 and
1 sub-steps respects submission order. -/
theorem C2_serializer_no_interleaving_witness :
    ([0, 0, 1] : List Nat).getD 0 0 ≤ ([0, 0, 1] : List Nat).getD 2 0 :=
  C2_serializer_no_interleaving [2, 1] [0, 0, 1] (by rfl)
    (by intro k hk; simp at hk; interval_cases k <;> decide) 0 2 (by omega) (by decide)

/-! ## C6 and C7: scope resolution -/

theorem ne_of_headD {a b : List Char} (c : Char) (h : a.headD c ≠ b.headD c) : a ≠ b :=
  fun he => h (he ▸ rfl)

/-- Claim C6: scoping a structured (MI) command to `Thread(t)` produces a
single command whose text is the command name followed by an inline
`--thread t` option and the original option tail — no selection-switch command
is issued — while scoping a textual/extension command to `ThreadGroup(g)`
issues the observable switch → run → restore-thread sequence (preceded by the
current-thread query that the restore step needs). -/
theorem C6_scope_resolution (V : Type) (env : Env V) (cmd : List Char) (t g tprev : Int) :
    ((execMIRun V env cmd (.thread t)).1 =
        [⟨.mi, (splitCmd cmd).1 ++ " --thread ".data ++ intStr t ++ ' ' :: (splitCmd cmd).2⟩] ∧
      hasSub ("--thread ".data ++ intStr t)
        (((execMIRun V env cmd (.thread t)).1.headD ⟨.mi, []⟩).text) = true) ∧
    (env.curThread = some tprev →
      (execCMDRun V env cmd (.group g)).1 =
        [curThreadC, selGroupC g, ⟨.cli, cmd⟩, selThreadC tprev]) := by
  refine ⟨⟨rfl, ?_⟩, ?_⟩
  · have hb : beginsWith ("--thread ".data ++ intStr t)
        (("--thread ".data ++ intStr t) ++ (' ' :: (splitCmd cmd).2)) = true :=
      beginsWith_append_self _ _
    have hs := hasSub_of_beginsWith _ _ hb ((splitCmd cmd).1 ++ [' '])
    have hsp : " --thread ".data = ' ' :: "--thread ".data := by decide
    simp only [execMIRun, List.headD, hsp]
    simpa [List.append_assoc] using hs
  · intro h
    simp [execCMDRun, preserveThread, h]

/-- Witness for C6: `-exec-step` scoped to `Thread(7)`, and a textual command
scoped to `ThreadGroup(3)` with thread 5 previously selected. -/
theorem C6_scope_resolution_witness :
    ((execMIRun Unit ⟨some 5, fun _ _ => ()⟩ "-exec-step".data (.thread 7)).1 =
        [⟨.mi, (splitCmd "-exec-step".data).1 ++ " --thread ".data ++ intStr 7 ++
          ' ' :: (splitCmd "-exec-step".data).2⟩] ∧
      hasSub ("--thread ".data ++ intStr 7)
        (((execMIRun Unit ⟨some 5, fun _ _ => ()⟩ "-exec-step".data (.thread 7)).1.headD
          ⟨.mi, []⟩).text) = true) ∧
    (execCMDRun Unit ⟨some 5, fun _ _ => ()⟩ "context".data (.group 3)).1 =
      [curThreadC, selGroupC 3, ⟨.cli, "context".data⟩, selThreadC 5] :=
  ⟨(C6_scope_resolution Unit ⟨some 5, fun _ _ => ()⟩ "-exec-step".data 7 3 5).1,
    (C6_scope_resolution Unit ⟨some 5, fun _ _ => ()⟩ "context".data 7 3 5).2 rfl⟩

/-- Claim C7: for a command executed with `ThreadGroup` scope — on the
structured path (inline `--thread-group i<g>` option) as well as the textual
path (explicit `exec inferior <g>` switch) — the previously selected thread is
re-selected after the command, and only when a thread was previously selected;
no `exec inferior` command other than the switch to the target group itself is
ever issued (the previously selected group is never restored); and the
wrapped command's own response is returned unchanged. -/
theorem C7_group_scope_restores_thread_only (V : Type) (env : Env V) (cmd : List Char) (g : Int) :
    (∀ t, env.curThread = some t →
        (execMIRun V env cmd (.group g)).1 =
          [curThreadC,
            ⟨.mi, (splitCmd cmd).1 ++ " --thread-group i".data ++ intStr g ++
              ' ' :: (splitCmd cmd).2⟩, selThreadC t] ∧
        (execCMDRun V env cmd (.group g)).1 =
          [curThreadC, selGroupC g, ⟨.cli, cmd⟩, selThreadC t]) ∧
    (env.curThread = none →
        (execMIRun V env cmd (.group g)).1 =
          [curThreadC,
            ⟨.mi, (splitCmd cmd).1 ++ " --thread-group i".data ++ intStr g ++
              ' ' :: (splitCmd cmd).2⟩] ∧
        (execCMDRun V env cmd (.group g)).1 = [curThreadC, selGroupC g, ⟨.cli, cmd⟩]) ∧
    (∀ x, ¬ selGroupC x ∈ (execMIRun V env cmd (.group g)).1) ∧
    (∀ t, env.curThread = some t →
        (execCMDRun V env cmd (.group g)).1.getLast? = some (selThreadC t) ∧
        ∀ x : Int, selThreadC t ≠ selGroupC x) ∧
    (execMIRun V env cmd (.group g)).2 =
      env.resp .mi ((splitCmd cmd).1 ++ " --thread-group i".data ++ intStr g ++
        ' ' :: (splitCmd cmd).2) ∧
    (execCMDRun V env cmd (.group g)).2 = env.resp .cli cmd := by
  have hne1 : ∀ x : Int, selGroupC x ≠ curThreadC := by
    intro x h
    have h2 := congrArg (fun s => s.text.headD ' ') h
    have h3 : ('e' : Char) = 't' := h2
    exact absurd h3 (by decide)
  have hne2 : ∀ (x : Int) (s : List Char), selGroupC x ≠ ⟨.mi, s⟩ := by
    intro x s h
    have h2 : Interp.cli = Interp.mi := congrArg SentC.interp h
    exact absurd h2 (by decide)
  refine ⟨?_, ?_, ?_, ?_, ?_, ?_⟩
  · intro t h; exact ⟨by simp [execMIRun, preserveThread, h], by simp [execCMDRun, preserveThread, h]⟩
  · intro h; exact ⟨by simp [execMIRun, preserveThread, h], by simp [execCMDRun, preserveThread, h]⟩
  · intro x hmem
    rcases henv : env.curThread with _ | t <;>
      simp [execMIRun, preserveThread, henv] at hmem <;>
      rcases hmem with h | h
    · exact hne1 x h
    · exact hne2 x _ h
    · exact hne1 x h
    · rcases h with h | h
      · exact hne2 x _ h
      · exact hne2 x _ h
  · intro t h
    refine ⟨by simp [execCMDRun, preserveThread, h], ?_⟩
    intro x hx
    have h2 : Interp.mi = Interp.cli := congrArg SentC.interp hx
    exact absurd h2 (by decide)
  · rcases henv : env.curThread with _ | t <;> simp [execMIRun, preserveThread, henv]
  · rcases henv : env.curThread with _ | t <;> simp [execCMDRun, preserveThread, henv]

/-- Witness for C7 at a concrete environment (thread 5 selected, textual
command `context`, group 3). -/
theorem C7_group_scope_restores_thread_only_witness :
    (execCMDRun (List Char) ⟨some 5, fun _ c => c⟩ "context".data (.group 3)).1 =
        [curThreadC, selGroupC 3, ⟨.cli, "context".data⟩, selThreadC 5] ∧
      (execCMDRun (List Char) ⟨some 5, fun _ c => c⟩ "context".data (.group 3)).2 =
        "context".data :=
  ⟨((C7_group_scope_restores_thread_only (List Char) ⟨some 5, fun _ c => c⟩
      "context".data 3).1 5 rfl).2,
    (C7_group_scope_restores_thread_only (List Char) ⟨some 5, fun _ c => c⟩
      "context".data 3).2.2.2.2.2⟩

/-! ## C8: initialization script upload -/

theorem initRun_all (content : ScriptId → List Char) (ok : Nat → Bool) :
    ∀ (L : List ScriptId) (i : Nat), (∀ m, m < L.length → ok (i + m) = true) →
      initRun content ok i L = (L.map (fun s => wrapScript (content s)), true) := by
  intro L
  induction L with
  | nil => intro i _; rfl
  | cons s rest ih =>
    intro i hall
    have h0 : ok i = true := by simpa using hall 0 (by simp)
    have hrest : ∀ m, m < rest.length → ok (i + 1 + m) = true := by
      intro m hm
      have := hall (m + 1) (by simp; omega)
      simpa [Nat.add_assoc, Nat.add_comm 1 m] using this
    simp [initRun, h0, ih (i + 1) hrest]

theorem initRun_stop (content : ScriptId → List Char) (ok : Nat → Bool) :
    ∀ (L : List ScriptId) (j i : Nat), j < L.length →
      (∀ m, m < j → ok (i + m) = true) → ok (i + j) = false →
      initRun content ok i L = ((L.take (j + 1)).map (fun s => wrapScript (content s)), false) := by
  intro L
  induction L with
  | nil => intro j i hj; simp at hj
  | cons s rest ih =>
    intro j i hj hprev hstop
    cases j with
    | zero =>
      simp at hstop
      simp [initRun, hstop]
    | succ j =>
      have h0 : ok i = true := by simpa using hprev 0 (by omega)
      have hprev' : ∀ m, m < j → ok (i + 1 + m) = true := by
        intro m hm
        have := hprev (m + 1) (by omega)
        simpa [Nat.add_assoc, Nat.add_comm 1 m] using this
      have hstop' : ok (i + 1 + j) = false := by
        simpa [Nat.add_assoc, Nat.add_comm 1 j] using hstop
      have := ih j (i + 1) (by simpa using hj) hprev' hstop'
      simp [initRun, h0, this]

/-- Claim C8: `init` transmits the eight extension scripts one at a time, in
the fixed source order (`base_py` first), each wrapped as
`-interpreter-exec console "python\n<script>"` with the script text passed
through `escape` (backslash, newline, carriage return, tab, double quote); if
every command resolves, all eight are sent in order, and if the `j`-th
command rejects (after the earlier ones resolved), exactly the first `j+1`
wrapped scripts are transmitted — no later script — and initialization
fails. -/
theorem C8_init_scripts (content : ScriptId → List Char) (ok : Nat → Bool) :
    ((∀ i, i < 8 → ok i = true) →
        initGDB content ok = (scriptsOrder.map (fun s => wrapScript (content s)), true)) ∧
      (∀ j, j < 8 → (∀ i, i < j → ok i = true) → ok j = false →
        initGDB content ok =
          ((scriptsOrder.take (j + 1)).map (fun s => wrapScript (content s)), false)) ∧
      scriptsOrder.headD .threadPy = .basePy ∧
      scriptsOrder.length = 8 := by
  refine ⟨?_, ?_, rfl, rfl⟩
  · intro hall
    exact initRun_all content ok scriptsOrder 0
      (by intro m hm; simpa using hall m (by simpa [scriptsOrder] using hm))
  · intro j hj hprev hstop
    exact initRun_stop content ok scriptsOrder j 0 (by simpa [scriptsOrder] using hj)
      (by intro m hm; simpa using hprev m hm) (by simpa using hstop)

/-- Witness for C8: all-success and first-failure runs at a concrete content
assignment. -/
theorem C8_init_scripts_witness :
    (initGDB (fun _ => "import gdb".data) (fun _ => true) =
        (scriptsOrder.map (fun s => wrapScript "import gdb".data), true)) ∧
      (initGDB (fun _ => "import gdb".data) (fun _ => false) =
        ((scriptsOrder.take 1).map (fun s => wrapScript "import gdb".data), false)) :=
  ⟨(C8_init_scripts (fun _ => "import gdb".data) (fun _ => true)).1 (fun _ _ => rfl),
    (C8_init_scripts (fun _ => "import gdb".data) (fun _ => false)).2.1 0 (by omega)
      (fun i hi => absurd hi (by omega)) rfl⟩

/-! ## C9: the `stopped` event -/

/-- Claim C9: every exec-class `stopped` record (whose shape does not crash
the handler: a record with a truthy `thread-id` carries a `frame`) yields a
`stopped` event carrying the record's reason; when the record has a truthy
`thread-id`, the payload's thread is built from that id with status `stopped`
and a frame built from the record's `frame.fullname`/`frame.line`/`frame.func`
fields; and the payload carries a breakpoint, with id `toInt(bkptno)`, exactly
when the reason is `breakpoint-hit`. -/
theorem C9_stopped_event (d : StopData) (hwf : truthyStr d.threadId = true → d.frame.isSome) :
    ∃ e, stoppedEvent d = some e ∧
      e.reason = d.reason ∧
      (∀ s, d.threadId = some s → s ≠ [] →
        ∃ f, d.frame = some f ∧
          e.thread = some
            { id := toIntJS s
              status := some "stopped".data
              group := none
              frame := some
                { file := f.fullname
                  line := toIntJS (fieldStr f.line)
                  func := f.func
                  level := none } }) ∧
      (e.breakpoint.isSome = true ↔ d.reason = some "breakpoint-hit".data) ∧
      (d.reason = some "breakpoint-hit".data → e.breakpoint = some ⟨toIntJS (fieldStr d.bkptno)⟩) := by
  by_cases ht : truthyStr d.threadId = true
  · obtain ⟨f, hf⟩ := Option.isSome_iff_exists.mp (hwf ht)
    by_cases hbk : d.reason = some "breakpoint-hit".data
    · refine ⟨{ reason := some "breakpoint-hit".data
                thread := some
                  { id := toIntJS (fieldStr d.threadId)
                    status := some "stopped".data
                    group := none
                    frame := some
                      { file := f.fullname
                        line := toIntJS (fieldStr f.line)
                        func := f.func
                        level := none } }
                breakpoint := some ⟨toIntJS (fieldStr d.bkptno)⟩ },
        by simp [stoppedEvent, ht, hf, hbk], hbk.symm, ?_, by simp [hbk], fun _ => rfl⟩
      intro s hs hs2
      exact ⟨f, hf, by simp [fieldStr, hs]⟩
    · refine ⟨{ reason := d.reason
                thread := some
                  { id := toIntJS (fieldStr d.threadId)
                    status := some "stopped".data
                    group := none
                    frame := some
                      { file := f.fullname
                        line := toIntJS (fieldStr f.line)
                        func := f.func
                        level := none } }
                breakpoint := none },
        by simp [stoppedEvent, ht, hf, hbk], rfl, ?_, by simp [hbk], fun h => absurd h hbk⟩
      intro s hs hs2
      exact ⟨f, hf, by simp [fieldStr, hs]⟩
  · by_cases hbk : d.reason = some "breakpoint-hit".data
    · refine ⟨{ reason := some "breakpoint-hit".data
                thread := none
                breakpoint := some ⟨toIntJS (fieldStr d.bkptno)⟩ },
        by simp [stoppedEvent, ht, hbk], hbk.symm, ?_, by simp [hbk], fun _ => rfl⟩
      intro s hs hs2
      exact absurd (by simp [truthyStr, hs, hs2]) ht
    · refine ⟨{ reason := d.reason, thread := none, breakpoint := none },
        by simp [stoppedEvent, ht, hbk], rfl, ?_, by simp [hbk], fun h => absurd h hbk⟩
      intro s hs hs2
      exact absurd (by simp [truthyStr, hs, hs2]) ht

/-- Witness for C9 at the record
`*stopped,reason="breakpoint-hit",bkptno="2",thread-id="3",frame={...}`:
the emitted event has `thread.id = 3` and `breakpoint.id = 2`. -/
theorem C9_stopped_event_witness :
    (stoppedEvent
        { reason := some "breakpoint-hit".data
          threadId := some "3".data
          frame := some
            { fullname := some "/src/main.c".data
              line := some "10".data
              func := some "main".data }
          bkptno := some "2".data }).isSome = true ∧
      (stoppedEvent
          { reason := some "breakpoint-hit".data
            threadId := some "3".data
            frame := some
              { fullname := some "/src/main.c".data
                line := some "10".data
                func := some "main".data }
            bkptno := some "2".data }).map
          (fun e => (e.thread.map ThreadV.id, e.breakpoint.map BreakpointV.id)) =
        some (some (some 3), some (some 2)) := by
  constructor
  · obtain ⟨e, he, _⟩ := C9_stopped_event
      { reason := some "breakpoint-hit".data
        threadId := some "3".data
        frame := some
          { fullname := some "/src/main.c".data
            line := some "10".data
            func := some "main".data }
        bkptno := some "2".data } (fun _ => rfl)
    rw [he]
    rfl
  · rfl

/-! ## C10: the public console stream and sentinel removal -/

theorem hasSub_false_append_right (P : List Char) :
    ∀ (x b : List Char), hasSub P (x ++ b) = false → hasSub P b = false := by
  intro x
  induction x with
  | nil => intro b h; exact h
  | cons c cs ih =>
    intro b h
    rw [List.cons_append, hasSub, Bool.or_eq_false_iff] at h
    exact ih b h.2

theorem beginsWith_head_eq {a b : Char} {p l : List Char}
    (h : beginsWith (a :: p) (b :: l) = true) : a = b := by
  have h2 : (decide (a = b) && beginsWith p l) = true := h
  rw [Bool.and_eq_true, decide_eq_true_eq] at h2
  exact h2.1

theorem beginsWith_split (P : List Char) :
    ∀ (u x : List Char), beginsWith P (u ++ x) = true →
      beginsWith P u = true ∨
        (u = P.take u.length ∧ u.length < P.length ∧
          beginsWith (P.drop u.length) x = true) := by
  intro u
  induction u generalizing P with
  | nil =>
    intro x h
    cases P with
    | nil => exact Or.inl rfl
    | cons q qs => exact Or.inr ⟨rfl, by simp, h⟩
  | cons a as ih =>
    intro x h
    cases P with
    | nil => exact Or.inl rfl
    | cons q qs =>
      have h2 : (decide (q = a) && beginsWith qs (as ++ x)) = true := h
      rw [Bool.and_eq_true, decide_eq_true_eq] at h2
      rcases ih qs x h2.2 with hb | ⟨hu, hlen, hb⟩
      · exact Or.inl (by simp [beginsWith, h2.1, hb])
      · refine Or.inr ⟨?_, by simpa using hlen, by simpa using hb⟩
        rw [List.length_cons, List.take_succ_cons, h2.1, ← hu]

theorem beginsWith_le_length (P : List Char) :
    ∀ l, beginsWith P l = true → P.length ≤ l.length := by
  induction P with
  | nil => intro l _; simp
  | cons a as ih =>
    intro l h
    cases l with
    | nil => exact absurd h (by simp [beginsWith])
    | cons b bs =>
      have h2 : (decide (a = b) && beginsWith as bs) = true := h
      rw [Bool.and_eq_true] at h2
      simpa using ih bs h2.2

theorem no_begins_inside (P : List Char) (hd : Char) (x : List Char)
    (hball : ∀ k, k < P.length → 1 ≤ k → P.getD k ' ' ≠ hd) :
    ∀ (u : List Char), u ≠ [] → hasSub P u = false →
      beginsWith P (u ++ hd :: x) = false := by
  intro u hu hsub
  by_contra htrue
  rw [Bool.not_eq_false] at htrue
  rcases beginsWith_split P u (hd :: x) htrue with hb | ⟨_, hlen, hb⟩
  · cases u with
    | nil => exact hu rfl
    | cons c cs =>
      rw [hasSub, Bool.or_eq_false_iff] at hsub
      rw [hsub.1] at hb
      exact Bool.false_ne_true hb
  · have hk1 : 1 ≤ u.length := by
      cases u with
      | nil => exact absurd rfl hu
      | cons _ _ => simp
    have hd_eq : P.getD u.length ' ' = hd := by
      rw [List.drop_eq_getElem_cons hlen] at hb
      rw [List.getD_eq_getElem?_getD, List.getElem?_eq_getElem hlen]
      exact beginsWith_head_eq hb
    exact hball u.length hlen hk1 hd_eq

theorem scanSentEnd_clean :
    ∀ (m : List Char) (fuel : Nat) (s' : List Char), m.length ≤ fuel →
      hasSub ":gdbjs>".data m = false →
      (∀ c ∈ m, c ≠ '\n' ∧ c ≠ '\r') →
      scanSentEnd fuel (m ++ (":gdbjs>".data ++ s')) = some s' := by
  intro m
  induction m with
  | nil =>
    intro fuel s' _ _ _
    have hb : beginsWith ":gdbjs>".data (":gdbjs>".data ++ s') = true :=
      beginsWith_append_self _ _
    have hdrop : (":gdbjs>".data ++ s').drop 7 = s' := List.drop_left ":gdbjs>".data s'
    cases fuel with
    | zero => rw [List.nil_append, scanSentEnd, if_pos hb, hdrop]
    | succ f =>
      show scanSentEnd (f + 1) (':' :: ("gdbjs>".data ++ s')) = some s'
      rw [scanSentEnd,
        if_pos (show beginsWith ":gdbjs>".data (':' :: ("gdbjs>".data ++ s')) = true from hb)]
      rfl
  | cons c m' ih =>
    intro fuel s' hfuel hsub hnl
    have hcne := hnl c (by simp)
    have hsub' : hasSub ":gdbjs>".data m' = false := by
      rw [hasSub, Bool.or_eq_false_iff] at hsub
      exact hsub.2
    have hfalse : beginsWith ":gdbjs>".data (c :: (m' ++ (":gdbjs>".data ++ s'))) = false :=
      no_begins_inside ":gdbjs>".data ':' ("gdbjs>".data ++ s') (by decide)
        (c :: m') (by simp) hsub
    cases fuel with
    | zero => simp at hfuel
    | succ f =>
      rw [List.cons_append, scanSentEnd, hfalse]
      simp only [Bool.false_eq_true, if_false]
      rw [if_neg (by simp [hcne.1, hcne.2])]
      exact ih f s' (by simpa using hfuel) hsub' (fun d hd => hnl d (by simp [hd]))

theorem removeAux_emit :
    ∀ (p Y : List Char) (fuel : Nat), p.length ≤ fuel →
      hasSub "<gdbjs:".data p = false →
      removeSentinelsAux fuel (p ++ ("<gdbjs:".data ++ Y)) =
        p ++ removeSentinelsAux (fuel - p.length) ("<gdbjs:".data ++ Y) := by
  intro p
  induction p with
  | nil => intro Y fuel _ _; simp
  | cons c p' ih =>
    intro Y fuel hfuel hsub
    have hfalse : beginsWith "<gdbjs:".data (c :: (p' ++ ("<gdbjs:".data ++ Y))) = false :=
      no_begins_inside "<gdbjs:".data '<' ("gdbjs:".data ++ Y) (by decide)
        (c :: p') (by simp) hsub
    have hsub' : hasSub "<gdbjs:".data p' = false := by
      rw [hasSub, Bool.or_eq_false_iff] at hsub
      exact hsub.2
    cases fuel with
    | zero => simp at hfuel
    | succ f =>
      have hnone : matchSent (c :: (p' ++ ("<gdbjs:".data ++ Y))) = none := by
        rw [matchSent, hfalse]
        simp
      rw [List.cons_append, removeSentinelsAux, hnone]
      simp only []
      rw [ih Y f (by simpa using hfuel) hsub']
      simp [Nat.succ_sub_one]

theorem scanSentEnd_le :
    ∀ (fuel : Nat) (l r : List Char), scanSentEnd fuel l = some r → r.length ≤ l.length := by
  intro fuel
  induction fuel with
  | zero =>
    intro l r h
    rw [scanSentEnd] at h
    split at h
    · cases h; simp
    · exact absurd h (by simp)
  | succ f ih =>
    intro l r h
    cases l with
    | nil => exact Option.noConfusion (show (none : Option (List Char)) = some r from h)
    | cons c rest =>
      rw [scanSentEnd] at h
      split at h
      · cases h
        simp only [List.length_drop]
        omega
      · split at h
        · exact absurd h (by simp)
        · have := ih rest r h
          simp only [List.length_cons]
          omega

theorem matchSent_lt (l after : List Char) (h : matchSent l = some after) :
    after.length < l.length := by
  rw [matchSent] at h
  split at h
  · rename_i hb
    have h7 : ("<gdbjs:".data).length ≤ l.length := beginsWith_le_length _ _ hb
    have h7b : ("<gdbjs:".data).length = 7 := rfl
    have hs := scanSentEnd_le l.length (l.drop 7) after h
    have hd : (l.drop 7).length = l.length - 7 := List.length_drop 7 l
    omega
  · exact absurd h (by simp)

theorem removeAux_fuel :
    ∀ (n : Nat) (l : List Char) (f g : Nat), l.length ≤ n → l.length ≤ f → l.length ≤ g →
      removeSentinelsAux f l = removeSentinelsAux g l := by
  intro n
  induction n with
  | zero =>
    intro l f g hn _ _
    have hnil : l = [] := List.length_eq_zero.mp (by omega)
    subst hnil
    cases f <;> cases g <;> rfl
  | succ n ih =>
    intro l f g hn hf hg
    cases l with
    | nil => cases f <;> cases g <;> rfl
    | cons c rest =>
      simp only [List.length_cons] at hn hf hg
      obtain ⟨f2, rfl⟩ : ∃ f2, f = f2 + 1 := ⟨f - 1, by omega⟩
      obtain ⟨g2, rfl⟩ : ∃ g2, g = g2 + 1 := ⟨g - 1, by omega⟩
      rw [removeSentinelsAux, removeSentinelsAux]
      cases hmatch : matchSent (c :: rest) with
      | some after =>
        simp only [hmatch]
        have hlt := matchSent_lt _ _ hmatch
        simp only [List.length_cons] at hlt
        exact ih after f2 g2 (by omega) (by omega) (by omega)
      | none =>
        simp only [hmatch]
        rw [ih rest f2 g2 (by omega) (by omega) (by omega)]

/-- Counterexample for C10 as stated: the record
`<gdb<gdbjs:x:gdbjs>js:y:gdbjs>` contains exactly one sentinel-pattern match
(`<gdbjs:x:gdbjs>`, the leftmost-shortest); removing it glues the surrounding
text into `<gdbjs:y:gdbjs>`, so the element emitted on the public
`consoleStream` still contains — indeed is — sentinel wrapper text. -/
theorem C10_counterexample :
    removeSentinels "<gdb<gdbjs:x:gdbjs>js:y:gdbjs>".data = "<gdbjs:y:gdbjs>".data ∧
      hasSentinel (removeSentinels "<gdb<gdbjs:x:gdbjs>js:y:gdbjs>".data) = true :=
  ⟨by decide, by decide⟩

/-- C10 as amended: every element emitted on the public `consoleStream` is the
record's text with the non-overlapping leftmost-shortest matches of
`<gdbjs:.*?:gdbjs>` removed.  For a well-formed occurrence — payload free of
the closing delimiter and of newlines, preceding text free of the opening
delimiter — the whole wrapper is removed and the surrounding text is
preserved (with removal continuing in the remainder); but, as the
counterexample shows, removal does not guarantee that no sentinel-shaped text
remains on the public stream. -/
theorem C10_sentinel_removal (p m s : List Char)
    (hp : hasSub "<gdbjs:".data p = false)
    (hm : hasSub ":gdbjs>".data m = false)
    (hnl : ∀ c ∈ m, c ≠ '\n' ∧ c ≠ '\r') :
    removeSentinels (p ++ ("<gdbjs:".data ++ (m ++ (":gdbjs>".data ++ s)))) =
      p ++ removeSentinels s := by
  have h7a : ("<gdbjs:".data).length = 7 := rfl
  have h7b : (":gdbjs>".data).length = 7 := rfl
  rw [removeSentinels]
  have hlenL : (p ++ ("<gdbjs:".data ++ (m ++ (":gdbjs>".data ++ s)))).length =
      p.length + (7 + (m.length + (7 + s.length))) := by
    simp [List.length_append, h7a, h7b]
    omega
  rw [removeAux_emit p _ _ (by omega) hp]
  have hms : matchSent ("<gdbjs:".data ++ (m ++ (":gdbjs>".data ++ s))) = some s := by
    have hdrop : List.drop 7 ("<gdbjs:".data ++ (m ++ (":gdbjs>".data ++ s))) =
        m ++ (":gdbjs>".data ++ s) := List.drop_left "<gdbjs:".data _
    rw [matchSent, if_pos (beginsWith_append_self _ _), hdrop]
    refine scanSentEnd_clean m _ s ?_ hm hnl
    simp [List.length_append, h7a, h7b]
    omega
  have hF : (p ++ ("<gdbjs:".data ++ (m ++ (":gdbjs>".data ++ s)))).length - p.length =
      (7 + (m.length + (7 + s.length)) - 1) + 1 := by omega
  rw [hF]
  rw [show "<gdbjs:".data ++ (m ++ (":gdbjs>".data ++ s)) =
    '<' :: ("gdbjs:".data ++ (m ++ (":gdbjs>".data ++ s))) from rfl]
  rw [removeSentinelsAux]
  simp only [show matchSent ('<' :: ("gdbjs:".data ++ (m ++ (":gdbjs>".data ++ s)))) = some s
    from hms]
  rw [removeSentinels]
  rw [removeAux_fuel s.length s (7 + (m.length + (7 + s.length)) - 1) s.length
    (le_refl _) (by omega) (le_refl _)]

/-- Witness for the amended C10: a console record carrying one well-formed
sentinel wrapper between plain text. -/
theorem C10_sentinel_removal_witness :
    removeSentinels ("log: ".data ++ ("<gdbjs:".data ++ ("cmd:ctx [1] ctx:cmd".data ++
        (":gdbjs>".data ++ " done".data)))) = "log: ".data ++ removeSentinels " done".data :=
  C10_sentinel_removal "log: ".data "cmd:ctx [1] ctx:cmd".data " done".data
    (by decide) (by decide) (by decide)

/-! ## C4: round-trip of the cmd-sentinel wire format

First the JSON layer: `parseVal` inverts `stringify`. -/

theorem fneed_pos (v : JVal) : 1 ≤ fneed v := by
  cases v <;> simp [fneed] <;> omega

theorem fneedArr_pos (xs : JArr) : 1 ≤ fneedArr xs := by
  cases xs <;> simp [fneedArr] <;> omega

theorem fneedObj_pos (fs : JObj) : 1 ≤ fneedObj fs := by
  cases fs <;> simp [fneedObj] <;> omega

theorem skipWs_cons (c : Char) (l : List Char) (h : jWs c = false) :
    skipWs (c :: l) = c :: l := by
  rw [skipWs, if_neg (by simp [h])]

theorem isDigit_facts (c : Char) (h : isDigit c = true) :
    jWs c = false ∧ c ≠ 'n' ∧ c ≠ 't' ∧ c ≠ 'f' ∧ c ≠ '"' ∧ c ≠ '-' ∧ c ≠ '[' ∧
      c ≠ '{' ∧ c ≠ ']' ∧ c ≠ '}' ∧ c ≠ ',' ∧ c ≠ ':' := by
  have h2 : 48 ≤ c.toNat ∧ c.toNat ≤ 57 := by
    simpa [isDigit, Bool.and_eq_true, decide_eq_true_eq] using h
  refine ⟨?_, ?_, ?_, ?_, ?_, ?_, ?_, ?_, ?_, ?_, ?_, ?_⟩
  · by_contra hw
    rw [Bool.not_eq_false] at hw
    rcases (by simpa [jWs, Bool.or_eq_true, decide_eq_true_eq] using hw :
      ((c = ' ' ∨ c = '\t') ∨ c = '\n') ∨ c = '\r') with ((h3 | h3) | h3) | h3 <;>
      subst h3 <;> exact absurd h2 (by decide)
  all_goals intro heq
  all_goals subst heq
  all_goals exact absurd h2 (by decide)

theorem dchar_facts (d : Nat) (h : d < 10) :
    isDigit (dchar d) = true ∧ digitVal (dchar d) = d := by
  interval_cases d <;> exact ⟨by decide, by decide⟩

theorem parseNatAux_digits :
    ∀ (ds : List Nat) (acc : Nat) (rest : List Char),
      (∀ d ∈ ds, d < 10) → headDigit rest = false →
      parseNatAux acc (ds.map dchar ++ rest) =
        (Nat.ofDigits 10 ds.reverse + acc * 10 ^ ds.length, rest) := by
  intro ds
  induction ds with
  | nil =>
    intro acc rest _ hrest
    cases rest with
    | nil => simp [parseNatAux, Nat.ofDigits]
    | cons c cs =>
      have hc : isDigit c = false := hrest
      simp [parseNatAux, hc, Nat.ofDigits]
  | cons d ds ih =>
    intro acc rest hds hrest
    have hd10 : d < 10 := hds d (by simp)
    have hdf := dchar_facts d hd10
    rw [List.map_cons, List.cons_append, parseNatAux, if_pos hdf.1, hdf.2]
    rw [ih (acc * 10 + d) rest (fun x hx => hds x (by simp [hx])) hrest]
    have hsplit : Nat.ofDigits 10 (ds.reverse ++ [d]) =
        Nat.ofDigits 10 ds.reverse + 10 ^ ds.reverse.length * Nat.ofDigits 10 [d] :=
      Nat.ofDigits_append
    simp only [List.reverse_cons, hsplit, Nat.ofDigits_singleton, List.length_reverse,
      List.length_cons, List.length_map]
    rw [Prod.mk.injEq]
    exact ⟨by ring, rfl⟩

theorem natDigits_head (n : Nat) :
    ∃ c0 cs, natDigits n = c0 :: cs ∧ isDigit c0 = true := by
  by_cases h0 : n = 0
  · exact ⟨'0', [], by simp [natDigits, h0], by decide⟩
  · have hne : Nat.digits 10 n ≠ [] := Nat.digits_ne_nil_iff_ne_zero.mpr h0
    have hrev : (Nat.digits 10 n).reverse ≠ [] := by simpa using hne
    cases hds : (Nat.digits 10 n).reverse with
    | nil => exact absurd hds hrev
    | cons d ds' =>
      have hmem : d ∈ Nat.digits 10 n := by
        have hmem2 : d ∈ (Nat.digits 10 n).reverse := by rw [hds]; simp
        simpa using hmem2
      have hd10 : d < 10 := Nat.digits_lt_base (by norm_num) hmem
      exact ⟨dchar d, ds'.map dchar, by simp [natDigits, h0, hds], (dchar_facts d hd10).1⟩

theorem parseNum_natDigits (n : Nat) (rest : List Char) (hrest : headDigit rest = false) :
    parseNum (natDigits n ++ rest) = some (n, rest) := by
  by_cases h0 : n = 0
  · subst h0
    rw [show natDigits 0 = ['0'] from rfl, List.cons_append, List.nil_append,
      parseNum, if_pos (by decide)]
    have := parseNatAux_digits [] 0 rest (by simp) hrest
    simp only [List.map_nil, List.nil_append] at this
    rw [show digitVal '0' = 0 from rfl, this]
    simp [Nat.ofDigits]
  · have hds0 : natDigits n = ((Nat.digits 10 n).reverse).map dchar := by
      simp [natDigits, h0]
    have hlt : ∀ d ∈ (Nat.digits 10 n).reverse, d < 10 := by
      intro d hd
      exact Nat.digits_lt_base (by norm_num) (by simpa using hd)
    have hfull := parseNatAux_digits ((Nat.digits 10 n).reverse) 0 rest hlt hrest
    cases hds : (Nat.digits 10 n).reverse with
    | nil =>
      exact absurd (by simpa using hds) (Nat.digits_ne_nil_iff_ne_zero.mpr h0)
    | cons d ds' =>
      have hd10 : d < 10 := hlt d (by rw [hds]; simp)
      have hdf := dchar_facts d hd10
      rw [hds] at hfull
      rw [List.map_cons, List.cons_append, parseNatAux, if_pos hdf.1, hdf.2] at hfull
      rw [hds0, hds, List.map_cons, List.cons_append, parseNum, if_pos hdf.1, hdf.2]
      have hval : Nat.ofDigits 10 (d :: ds').reverse + 0 * 10 ^ (d :: ds').length = n := by
        rw [← hds]
        simp [Nat.ofDigits_digits]
      rw [show (0 : Nat) * 10 + d = d from by omega] at hfull
      rw [hfull, hval]

/-! Dispatch lemmas: `parseVal` at fuel `f+1` with a concrete head character
reduces to the corresponding branch (all definitional). -/

theorem parseVal_null (f : Nat) (X : List Char) :
    parseVal (f + 1) ('n' :: X) =
      (if beginsWith "ull".data X then some (.null, X.drop 3) else none) := rfl

theorem parseVal_true (f : Nat) (X : List Char) :
    parseVal (f + 1) ('t' :: X) =
      (if beginsWith "rue".data X then some (.bool true, X.drop 3) else none) := rfl

theorem parseVal_false (f : Nat) (X : List Char) :
    parseVal (f + 1) ('f' :: X) =
      (if beginsWith "alse".data X then some (.bool false, X.drop 4) else none) := rfl

theorem parseVal_quote (f : Nat) (X : List Char) :
    parseVal (f + 1) ('"' :: X) =
      (parseStrBody X.length X).map (fun p => (.str p.1, p.2)) := rfl

theorem parseVal_minus (f : Nat) (X : List Char) :
    parseVal (f + 1) ('-' :: X) = (parseNum X).map (fun p => (.num (-(p.1 : Int)), p.2)) := rfl

theorem parseVal_bracket (f : Nat) (X : List Char) :
    parseVal (f + 1) ('[' :: X) =
      (if headIs ']' (skipWs X) then some (.arr .nil, (skipWs X).tail)
       else (parseItems f (skipWs X)).map (fun p => (.arr p.1, p.2))) := rfl

theorem parseVal_brace (f : Nat) (X : List Char) :
    parseVal (f + 1) ('{' :: X) =
      (if headIs '}' (skipWs X) then some (.obj .nil, (skipWs X).tail)
       else (parseFields f (skipWs X)).map (fun p => (.obj p.1, p.2))) := rfl

theorem parseVal_digit (f : Nat) (c : Char) (X : List Char) (h : isDigit c = true) :
    parseVal (f + 1) (c :: X) =
      (parseNum (c :: X)).map (fun p => (.num (p.1 : Int), p.2)) := by
  have hf := isDigit_facts c h
  simp only [parseVal, skipWs_cons c X hf.1]
  rw [if_neg hf.2.1, if_neg hf.2.2.1, if_neg hf.2.2.2.1, if_neg hf.2.2.2.2.1,
    if_neg hf.2.2.2.2.2.1, if_neg hf.2.2.2.2.2.2.1, if_neg hf.2.2.2.2.2.2.2.1, if_pos h]

theorem parseStrBody_short (f : Nat) (e d : Char) (rest : List Char)
    (he : e ≠ 'u') (hd : escDecode e = some d) :
    parseStrBody (f + 1) ('\\' :: e :: rest) =
      (parseStrBody f rest).map (fun p => (d :: p.1, p.2)) := by
  simp only [parseStrBody]
  rw [if_pos trivial, if_neg he, hd]
  rfl

theorem parseStrBody_plain (f : Nat) (c : Char) (rest : List Char)
    (h1 : c ≠ '"') (h2 : c ≠ '\\') :
    parseStrBody (f + 1) (c :: rest) =
      (parseStrBody f rest).map (fun p => (c :: p.1, p.2)) := by
  simp only [parseStrBody]
  rw [if_neg h1, if_neg h2]

theorem parseStrBody_esc :
    ∀ (s : List Char) (fuel : Nat) (rest : List Char),
      (s.flatMap escJchar).length + 1 ≤ fuel →
      parseStrBody fuel (s.flatMap escJchar ++ ('"' :: rest)) = some (s, rest) := by
  intro s
  induction s with
  | nil =>
    intro fuel rest hfuel
    obtain ⟨f, rfl⟩ : ∃ f, fuel = f + 1 := ⟨fuel - 1, by omega⟩
    rfl
  | cons c s' ih =>
    intro fuel rest hfuel
    rw [List.flatMap_cons] at hfuel ⊢
    by_cases h1 : c = '"'
    · subst h1
      rw [show escJchar '"' = ['\\', '"'] from rfl] at hfuel ⊢
      simp only [List.length_append, List.length_cons] at hfuel
      obtain ⟨f, rfl⟩ : ∃ f, fuel = f + 1 + 1 := ⟨fuel - 2, by omega⟩
      simp only [List.cons_append, List.singleton_append, List.append_assoc, List.nil_append]
      rw [parseStrBody_short (f + 1) '"' '"' _ (by decide) rfl,
        ih (f + 1) rest (by omega)]
      rfl
    · by_cases h2 : c = '\\'
      · subst h2
        rw [show escJchar '\\' = ['\\', '\\'] from rfl] at hfuel ⊢
        simp only [List.length_append, List.length_cons] at hfuel
        obtain ⟨f, rfl⟩ : ∃ f, fuel = f + 1 + 1 := ⟨fuel - 2, by omega⟩
        simp only [List.cons_append, List.singleton_append, List.append_assoc, List.nil_append]
        rw [parseStrBody_short (f + 1) '\\' '\\' _ (by decide) rfl,
          ih (f + 1) rest (by omega)]
        rfl
      · by_cases h3 : c = '\n'
        · subst h3
          rw [show escJchar '\n' = ['\\', 'n'] from rfl] at hfuel ⊢
          simp only [List.length_append, List.length_cons] at hfuel
          obtain ⟨f, rfl⟩ : ∃ f, fuel = f + 1 + 1 := ⟨fuel - 2, by omega⟩
          simp only [List.cons_append, List.singleton_append, List.append_assoc, List.nil_append]
          rw [parseStrBody_short (f + 1) 'n' '\n' _ (by decide) rfl,
            ih (f + 1) rest (by omega)]
          rfl
        · by_cases h4 : c = '\r'
          · subst h4
            rw [show escJchar '\r' = ['\\', 'r'] from rfl] at hfuel ⊢
            simp only [List.length_append, List.length_cons] at hfuel
            obtain ⟨f, rfl⟩ : ∃ f, fuel = f + 1 + 1 := ⟨fuel - 2, by omega⟩
            simp only [List.cons_append, List.singleton_append, List.append_assoc, List.nil_append]
            rw [parseStrBody_short (f + 1) 'r' '\r' _ (by decide) rfl,
              ih (f + 1) rest (by omega)]
            rfl
          · by_cases h5 : c = '\t'
            · subst h5
              rw [show escJchar '\t' = ['\\', 't'] from rfl] at hfuel ⊢
              simp only [List.length_append, List.length_cons] at hfuel
              obtain ⟨f, rfl⟩ : ∃ f, fuel = f + 1 + 1 := ⟨fuel - 2, by omega⟩
              simp only [List.cons_append, List.singleton_append, List.append_assoc, List.nil_append]
              rw [parseStrBody_short (f + 1) 't' '\t' _ (by decide) rfl,
                ih (f + 1) rest (by omega)]
              rfl
            · have he : escJchar c = [c] := by
                rw [escJchar, if_neg h1, if_neg h2, if_neg h3, if_neg h4, if_neg h5]
              rw [he] at hfuel ⊢
              simp only [List.length_append, List.length_cons, List.length_nil] at hfuel
              obtain ⟨f, rfl⟩ : ∃ f, fuel = f + 1 := ⟨fuel - 1, by omega⟩
              simp only [List.cons_append, List.singleton_append, List.append_assoc, List.nil_append]
              rw [parseStrBody_plain f c _ h1 h2, ih f rest (by omega)]
              rfl

theorem escJchar_noNL (c x : Char) (hx : x ∈ escJchar c) : x ≠ '\n' ∧ x ≠ '\r' := by
  unfold escJchar at hx
  split_ifs at hx with h1 h2 h3 h4 h5
  · fin_cases hx <;> exact ⟨by decide, by decide⟩
  · fin_cases hx <;> exact ⟨by decide, by decide⟩
  · fin_cases hx <;> exact ⟨by decide, by decide⟩
  · fin_cases hx <;> exact ⟨by decide, by decide⟩
  · fin_cases hx <;> exact ⟨by decide, by decide⟩
  · fin_cases hx
    exact ⟨h3, h4⟩

theorem natDigits_noNL (n : Nat) (x : Char) (hx : x ∈ natDigits n) :
    x ≠ '\n' ∧ x ≠ '\r' := by
  by_cases h0 : n = 0
  · subst h0
    simp [natDigits] at hx
    subst hx
    exact ⟨by decide, by decide⟩
  · simp [natDigits, h0] at hx
    obtain ⟨d, hd, rfl⟩ := hx
    have hd10 : d < 10 := Nat.digits_lt_base (by norm_num) hd
    interval_cases d <;> exact ⟨by decide, by decide⟩

theorem intDigits_noNL (n : Int) (x : Char) (hx : x ∈ intDigits n) :
    x ≠ '\n' ∧ x ≠ '\r' := by
  unfold intDigits at hx
  split_ifs at hx with h1
  · simp at hx
    rcases hx with h | h
    · subst h; exact ⟨by decide, by decide⟩
    · exact natDigits_noNL _ x h
  · exact natDigits_noNL _ x hx

theorem strLit_noNL (s : List Char) (x : Char) (hx : x ∈ strLit s) :
    x ≠ '\n' ∧ x ≠ '\r' := by
  simp [strLit] at hx
  rcases hx with h | h | h
  · subst h; exact ⟨by decide, by decide⟩
  · obtain ⟨c, _, hc⟩ := h
    exact escJchar_noNL c x hc
  · subst h; exact ⟨by decide, by decide⟩

mutual

theorem stringify_noNL (v : JVal) : ∀ x ∈ stringify v, x ≠ '\n' ∧ x ≠ '\r' := by
  cases v with
  | null => intro x hx; fin_cases hx <;> exact ⟨by decide, by decide⟩
  | bool b =>
    cases b <;> intro x hx <;> fin_cases hx <;> exact ⟨by decide, by decide⟩
  | num n => intro x hx; exact intDigits_noNL n x hx
  | str s => intro x hx; exact strLit_noNL s x hx
  | arr xs =>
    intro x hx
    rw [stringify] at hx
    rcases List.mem_cons.mp hx with h | h
    · subst h; exact ⟨by decide, by decide⟩
    · rcases List.mem_append.mp h with h2 | h2
      · exact stringifyItems_noNL xs x h2
      · simp at h2; subst h2; exact ⟨by decide, by decide⟩
  | obj fs =>
    intro x hx
    rw [stringify] at hx
    rcases List.mem_cons.mp hx with h | h
    · subst h; exact ⟨by decide, by decide⟩
    · rcases List.mem_append.mp h with h2 | h2
      · exact stringifyFields_noNL fs x h2
      · simp at h2; subst h2; exact ⟨by decide, by decide⟩

theorem stringifyItems_noNL (xs : JArr) : ∀ x ∈ stringifyItems xs, x ≠ '\n' ∧ x ≠ '\r' := by
  cases xs with
  | nil => intro x hx; simp [stringifyItems] at hx
  | cons v t =>
    cases t with
    | nil =>
      intro x hx
      rw [stringifyItems] at hx
      exact stringify_noNL v x hx
    | cons w t2 =>
      intro x hx
      rw [stringifyItems] at hx
      rcases List.mem_append.mp hx with h | h
      · exact stringify_noNL v x h
      · rcases List.mem_cons.mp h with h2 | h2
        · subst h2; exact ⟨by decide, by decide⟩
        · exact stringifyItems_noNL (.cons w t2) x h2

theorem stringifyFields_noNL (fs : JObj) : ∀ x ∈ stringifyFields fs, x ≠ '\n' ∧ x ≠ '\r' := by
  cases fs with
  | nil => intro x hx; simp [stringifyFields] at hx
  | cons k v t =>
    cases t with
    | nil =>
      intro x hx
      rw [stringifyFields] at hx
      rcases List.mem_append.mp hx with h | h
      · exact strLit_noNL k x h
      · rcases List.mem_cons.mp h with h2 | h2
        · subst h2; exact ⟨by decide, by decide⟩
        · exact stringify_noNL v x h2
    | cons k2 w t2 =>
      intro x hx
      rw [stringifyFields] at hx
      rcases List.mem_append.mp hx with h | h
      · rcases List.mem_append.mp h with h2 | h2
        · exact strLit_noNL k x h2
        · rcases List.mem_cons.mp h2 with h3 | h3
          · subst h3; exact ⟨by decide, by decide⟩
          · exact stringify_noNL v x h3
      · rcases List.mem_cons.mp h with h2 | h2
        · subst h2; exact ⟨by decide, by decide⟩
        · exact stringifyFields_noNL (.cons k2 w t2) x h2

end

theorem stringify_head (v : JVal) :
    ∃ c X, stringify v = c :: X ∧ jWs c = false ∧ c ≠ ']' ∧ c ≠ '}' := by
  cases v with
  | null => exact ⟨'n', _, rfl, by decide, by decide, by decide⟩
  | bool b =>
    cases b
    · exact ⟨'f', _, rfl, by decide, by decide, by decide⟩
    · exact ⟨'t', _, rfl, by decide, by decide, by decide⟩
  | num n =>
    by_cases hneg : n < 0
    · exact ⟨'-', natDigits n.natAbs, by simp [stringify, intDigits, hneg],
        by decide, by decide, by decide⟩
    · obtain ⟨c0, cs, hnd, hc0⟩ := natDigits_head n.toNat
      have hf := isDigit_facts c0 hc0
      exact ⟨c0, cs, by simp [stringify, intDigits, hneg, hnd], hf.1,
        hf.2.2.2.2.2.2.2.2.1, hf.2.2.2.2.2.2.2.2.2.1⟩
  | str s => exact ⟨'"', _, rfl, by decide, by decide, by decide⟩
  | arr xs => exact ⟨'[', _, rfl, by decide, by decide, by decide⟩
  | obj fs => exact ⟨'{', _, rfl, by decide, by decide, by decide⟩

theorem stringifyItems_head (w : JVal) (t : JArr) :
    ∃ Y, stringifyItems (.cons w t) = stringify w ++ Y := by
  cases t with
  | nil => exact ⟨[], by simp [stringifyItems]⟩
  | cons w2 t2 => exact ⟨',' :: stringifyItems (.cons w2 t2), rfl⟩

theorem stringifyFields_cons_head (k : List Char) (v : JVal) (t : JObj) :
    ∃ Z, stringifyFields (.cons k v t) = '"' :: Z := by
  cases t with
  | nil =>
    exact ⟨(k.flatMap escJchar ++ ['"']) ++ (':' :: stringify v),
      by simp [stringifyFields, strLit, List.cons_append, List.singleton_append,
        List.append_assoc]⟩
  | cons k2 w t2 =>
    exact ⟨(k.flatMap escJchar ++ ['"']) ++
        ((':' :: stringify v) ++ (',' :: stringifyFields (.cons k2 w t2))),
      by simp [stringifyFields, strLit, List.cons_append, List.singleton_append,
        List.append_assoc]⟩

theorem items_skipWs (w : JVal) (t : JArr) (R : List Char) :
    skipWs (stringifyItems (.cons w t) ++ R) = stringifyItems (.cons w t) ++ R := by
  obtain ⟨c, Xs, hc, hws, _, _⟩ := stringify_head w
  obtain ⟨Y, hY⟩ := stringifyItems_head w t
  have hform : stringifyItems (.cons w t) ++ R = c :: (Xs ++ (Y ++ R)) := by
    rw [hY, hc]; simp [List.cons_append, List.append_assoc]
  rw [hform, skipWs_cons c _ hws]

theorem items_not_bracket (w : JVal) (t : JArr) (R : List Char) :
    headIs ']' (stringifyItems (.cons w t) ++ R) = false := by
  obtain ⟨c, Xs, hc, hws, hbr, _⟩ := stringify_head w
  obtain ⟨Y, hY⟩ := stringifyItems_head w t
  have hform : stringifyItems (.cons w t) ++ R = c :: (Xs ++ (Y ++ R)) := by
    rw [hY, hc]; simp [List.cons_append, List.append_assoc]
  rw [hform]
  simp [headIs, hbr]

theorem fields_skipWs (k : List Char) (v : JVal) (t : JObj) (R : List Char) :
    skipWs (stringifyFields (.cons k v t) ++ R) = stringifyFields (.cons k v t) ++ R := by
  obtain ⟨Z, hZ⟩ := stringifyFields_cons_head k v t
  rw [hZ, List.cons_append, skipWs_cons '"' _ (by decide)]

theorem fields_not_brace (k : List Char) (v : JVal) (t : JObj) (R : List Char) :
    headIs '}' (stringifyFields (.cons k v t) ++ R) = false := by
  obtain ⟨Z, hZ⟩ := stringifyFields_cons_head k v t
  rw [hZ, List.cons_append]
  rfl

theorem intDigits_len_pos (n : Int) : 1 ≤ (intDigits n).length := by
  rw [intDigits]
  split_ifs
  · simp
  · obtain ⟨c0, cs, hds, _⟩ := natDigits_head n.toNat
    rw [hds]; simp

mutual

/-- The fuel bound `fneed` is dominated by twice the printed length. -/
theorem fneed_le (v : JVal) : fneed v + 1 ≤ 2 * (stringify v).length := by
  cases v with
  | null => decide
  | bool b => cases b <;> decide
  | num n =>
    have h := intDigits_len_pos n
    simp only [fneed, stringify]
    omega
  | str s =>
    simp only [fneed, stringify, strLit, List.cons_append, List.length_append,
      List.length_cons]
    omega
  | arr xs =>
    have h := fneedArr_le xs
    simp only [fneed, stringify, List.cons_append, List.length_append,
      List.length_cons] at h ⊢
    omega
  | obj fs =>
    have h := fneedObj_le fs
    simp only [fneed, stringify, List.cons_append, List.length_append,
      List.length_cons] at h ⊢
    omega

/-- Companion bound for array spines. -/
theorem fneedArr_le (xs : JArr) : fneedArr xs ≤ 2 * (stringifyItems xs).length + 1 := by
  cases xs with
  | nil => simp [fneedArr, stringifyItems]
  | cons v t =>
    cases t with
    | nil =>
      have hv := fneed_le v
      simp only [fneedArr, stringifyItems]
      omega
    | cons w t2 =>
      have hv := fneed_le v
      have ht := fneedArr_le (.cons w t2)
      simp only [fneedArr, stringifyItems, List.length_append, List.length_cons] at ht ⊢
      omega

/-- Companion bound for object spines. -/
theorem fneedObj_le (fs : JObj) : fneedObj fs ≤ 2 * (stringifyFields fs).length + 1 := by
  cases fs with
  | nil => simp [fneedObj, stringifyFields]
  | cons k v t =>
    cases t with
    | nil =>
      have hv := fneed_le v
      simp only [fneedObj, stringifyFields, strLit, List.cons_append,
        List.length_append, List.length_cons]
      omega
    | cons k2 w t2 =>
      have hv := fneed_le v
      have ht := fneedObj_le (.cons k2 w t2)
      simp only [fneedObj, stringifyFields, strLit, List.cons_append,
        List.length_append, List.length_cons] at ht ⊢
      omega

end

/-- `parseFields` at a quote: reduces to the string-body parse of the tail. -/
theorem parseFields_quote (f : Nat) (X : List Char) :
    parseFields (f + 1) ('"' :: X) =
      (match parseStrBody X.length X with
       | none => none
       | some (k, r2) =>
         if headIs ':' (skipWs r2) then
           match parseVal f ((skipWs r2).tail) with
           | none => none
           | some (v, r4) =>
             if headIs ',' (skipWs r4) then
               (parseFields f ((skipWs r4).tail)).map (fun p => (.cons k v p.1, p.2))
             else if headIs '}' (skipWs r4) then some (.cons k v .nil, (skipWs r4).tail)
             else none
         else none) := by
  simp only [parseFields]
  rw [if_pos (show headIs '"' (skipWs ('"' :: X)) = true from rfl),
    show (skipWs ('"' :: X)).tail = X from rfl]

/-- `parseFields` on a stringified key followed by `:`: reduces to the value
parse of the remainder. -/
theorem parseFields_colon (f : Nat) (k : List Char) (Z : List Char) :
    parseFields (f + 1) ('"' :: (k.flatMap escJchar ++ ('"' :: (':' :: Z)))) =
      (match parseVal f Z with
       | none => none
       | some (v, r4) =>
         if headIs ',' (skipWs r4) then
           (parseFields f ((skipWs r4).tail)).map (fun p => (.cons k v p.1, p.2))
         else if headIs '}' (skipWs r4) then some (.cons k v .nil, (skipWs r4).tail)
         else none) := by
  rw [parseFields_quote]
  have hsb := parseStrBody_esc k (k.flatMap escJchar ++ ('"' :: (':' :: Z))).length
    (':' :: Z) (by simp only [List.length_append, List.length_cons]; omega)
  simp only [hsb]
  rw [if_pos (show headIs ':' (skipWs (':' :: Z)) = true from rfl),
    show (skipWs (':' :: Z)).tail = Z from rfl]

mutual

/-- `parseVal` inverts `stringify`: parsing a stringified value followed by any
non-digit-headed remainder yields the value and that remainder. -/
theorem rtVal (v : JVal) : ∀ (fuel : Nat) (rest : List Char),
    fneed v ≤ fuel → headDigit rest = false →
    parseVal fuel (stringify v ++ rest) = some (v, rest) := by
  cases v with
  | null =>
    intro fuel rest hf hr
    obtain ⟨f, rfl⟩ : ∃ f, fuel = f + 1 := ⟨fuel - 1, by simp [fneed] at hf; omega⟩
    rw [show stringify JVal.null ++ rest = 'n' :: ('u' :: 'l' :: 'l' :: rest) from rfl,
      parseVal_null,
      if_pos (show beginsWith "ull".data ('u' :: 'l' :: 'l' :: rest) = true from
        beginsWith_append_self "ull".data rest)]
    rfl
  | bool b =>
    intro fuel rest hf hr
    obtain ⟨f, rfl⟩ : ∃ f, fuel = f + 1 := ⟨fuel - 1, by simp [fneed] at hf; omega⟩
    cases b with
    | true =>
      rw [show stringify (JVal.bool true) ++ rest = 't' :: ('r' :: 'u' :: 'e' :: rest) from rfl,
        parseVal_true,
        if_pos (show beginsWith "rue".data ('r' :: 'u' :: 'e' :: rest) = true from
          beginsWith_append_self "rue".data rest)]
      rfl
    | false =>
      rw [show stringify (JVal.bool false) ++ rest =
          'f' :: ('a' :: 'l' :: 's' :: 'e' :: rest) from rfl,
        parseVal_false,
        if_pos (show beginsWith "alse".data ('a' :: 'l' :: 's' :: 'e' :: rest) = true from
          beginsWith_append_self "alse".data rest)]
      rfl
  | num n =>
    intro fuel rest hf hr
    obtain ⟨f, rfl⟩ : ∃ f, fuel = f + 1 := ⟨fuel - 1, by simp [fneed] at hf; omega⟩
    by_cases hneg : n < 0
    · rw [show stringify (JVal.num n) = intDigits n from rfl, intDigits, if_pos hneg,
        List.cons_append, parseVal_minus, parseNum_natDigits n.natAbs rest hr]
      have hn : -((n.natAbs : Int)) = n := by omega
      conv_rhs => rw [← hn]
      rfl
    · rw [show stringify (JVal.num n) = intDigits n from rfl, intDigits, if_neg hneg]
      obtain ⟨c0, cs, hds, hd0⟩ := natDigits_head n.toNat
      have hpn := parseNum_natDigits n.toNat rest hr
      rw [hds, List.cons_append] at hpn ⊢
      rw [parseVal_digit f c0 (cs ++ rest) hd0, hpn]
      have hn : ((n.toNat : Int)) = n := by omega
      conv_rhs => rw [← hn]
      rfl
  | str s =>
    intro fuel rest hf hr
    obtain ⟨f, rfl⟩ : ∃ f, fuel = f + 1 := ⟨fuel - 1, by simp [fneed] at hf; omega⟩
    have hl : stringify (JVal.str s) ++ rest =
        '"' :: (s.flatMap escJchar ++ ('"' :: rest)) := by
      simp [stringify, strLit, List.cons_append, List.singleton_append, List.append_assoc]
    rw [hl, parseVal_quote,
      parseStrBody_esc s (s.flatMap escJchar ++ ('"' :: rest)).length rest
        (by simp only [List.length_append, List.length_cons]; omega)]
    rfl
  | arr xs =>
    cases xs with
    | nil =>
      intro fuel rest hf hr
      obtain ⟨f, rfl⟩ : ∃ f, fuel = f + 1 :=
        ⟨fuel - 1, by simp [fneed, fneedArr] at hf; omega⟩
      rfl
    | cons w t =>
      intro fuel rest hf hr
      obtain ⟨f, rfl⟩ : ∃ f, fuel = f + 1 := ⟨fuel - 1, by simp [fneed] at hf; omega⟩
      have hl : stringify (JVal.arr (.cons w t)) ++ rest =
          '[' :: (stringifyItems (.cons w t) ++ (']' :: rest)) := by
        simp [stringify, List.cons_append, List.singleton_append, List.append_assoc]
      rw [hl, parseVal_bracket, items_skipWs,
        if_neg (by simp [items_not_bracket w t (']' :: rest)]),
        rtItems (.cons w t) f rest (by simp) (by simp only [fneed] at hf; omega)]
      rfl
  | obj fs =>
    cases fs with
    | nil =>
      intro fuel rest hf hr
      obtain ⟨f, rfl⟩ : ∃ f, fuel = f + 1 :=
        ⟨fuel - 1, by simp [fneed, fneedObj] at hf; omega⟩
      rfl
    | cons k v t =>
      intro fuel rest hf hr
      obtain ⟨f, rfl⟩ : ∃ f, fuel = f + 1 := ⟨fuel - 1, by simp [fneed] at hf; omega⟩
      have hl : stringify (JVal.obj (.cons k v t)) ++ rest =
          '{' :: (stringifyFields (.cons k v t) ++ ('}' :: rest)) := by
        simp [stringify, List.cons_append, List.singleton_append, List.append_assoc]
      rw [hl, parseVal_brace, fields_skipWs,
        if_neg (by simp [fields_not_brace k v t ('}' :: rest)]),
        rtFields (.cons k v t) f rest (by simp) (by simp only [fneed] at hf; omega)]
      rfl

/-- `parseItems` inverts `stringifyItems` on nonempty element lists, up to the
closing bracket. -/
theorem rtItems (xs : JArr) : ∀ (fuel : Nat) (rest : List Char),
    xs ≠ .nil → fneedArr xs ≤ fuel →
    parseItems fuel (stringifyItems xs ++ (']' :: rest)) = some (xs, rest) := by
  cases xs with
  | nil => intro fuel rest hne _; exact absurd rfl hne
  | cons w t =>
    intro fuel rest _ hf
    obtain ⟨f, rfl⟩ : ∃ f, fuel = f + 1 :=
      ⟨fuel - 1, by simp only [fneedArr] at hf; omega⟩
    have hfw : fneed w ≤ f := by
      have h1 := fneedArr_pos t
      simp only [fneedArr] at hf
      omega
    cases t with
    | nil =>
      have hv := rtVal w f (']' :: rest) hfw rfl
      rw [show stringifyItems (JArr.cons w .nil) = stringify w from rfl]
      simp only [parseItems, hv]
      rfl
    | cons w2 t2 =>
      have hsi : stringifyItems (JArr.cons w (.cons w2 t2)) ++ (']' :: rest) =
          stringify w ++ (',' :: (stringifyItems (JArr.cons w2 t2) ++ (']' :: rest))) := by
        rw [show stringifyItems (JArr.cons w (.cons w2 t2)) =
          stringify w ++ ',' :: stringifyItems (JArr.cons w2 t2) from rfl]
        simp [List.cons_append, List.append_assoc]
      have hv := rtVal w f (',' :: (stringifyItems (JArr.cons w2 t2) ++ (']' :: rest)))
        hfw rfl
      rw [hsi]
      simp only [parseItems, hv]
      rw [if_pos (show headIs ','
          (skipWs (',' :: (stringifyItems (JArr.cons w2 t2) ++ (']' :: rest)))) = true
          from rfl),
        show (skipWs (',' :: (stringifyItems (JArr.cons w2 t2) ++ (']' :: rest)))).tail =
          stringifyItems (JArr.cons w2 t2) ++ (']' :: rest) from rfl,
        rtItems (.cons w2 t2) f rest (by simp) (by simp only [fneedArr] at hf ⊢; omega)]
      rfl

/-- `parseFields` inverts `stringifyFields` on nonempty field lists, up to the
closing brace. -/
theorem rtFields (fs : JObj) : ∀ (fuel : Nat) (rest : List Char),
    fs ≠ .nil → fneedObj fs ≤ fuel →
    parseFields fuel (stringifyFields fs ++ ('}' :: rest)) = some (fs, rest) := by
  cases fs with
  | nil => intro fuel rest hne _; exact absurd rfl hne
  | cons k v t =>
    intro fuel rest _ hf
    obtain ⟨f, rfl⟩ : ∃ f, fuel = f + 1 :=
      ⟨fuel - 1, by simp only [fneedObj] at hf; omega⟩
    have hfv : fneed v ≤ f := by
      have h1 := fneedObj_pos t
      simp only [fneedObj] at hf
      omega
    cases t with
    | nil =>
      have hl : stringifyFields (JObj.cons k v .nil) ++ ('}' :: rest) =
          '"' :: (k.flatMap escJchar ++ ('"' :: (':' :: (stringify v ++ ('}' :: rest))))) := by
        rw [show stringifyFields (JObj.cons k v .nil) =
          strLit k ++ ':' :: stringify v from rfl]
        simp [strLit, List.cons_append, List.singleton_append, List.append_assoc]
      rw [hl, parseFields_colon]
      have hv := rtVal v f ('}' :: rest) hfv rfl
      simp only [hv]
      rfl
    | cons k2 w t2 =>
      have hl : stringifyFields (JObj.cons k v (.cons k2 w t2)) ++ ('}' :: rest) =
          '"' :: (k.flatMap escJchar ++ ('"' :: (':' :: (stringify v ++
            (',' :: (stringifyFields (JObj.cons k2 w t2) ++ ('}' :: rest))))))) := by
        rw [show stringifyFields (JObj.cons k v (.cons k2 w t2)) =
          strLit k ++ ':' :: stringify v ++ ',' :: stringifyFields (JObj.cons k2 w t2)
          from rfl]
        simp [strLit, List.cons_append, List.singleton_append, List.append_assoc]
      rw [hl, parseFields_colon]
      have hv := rtVal v f
        (',' :: (stringifyFields (JObj.cons k2 w t2) ++ ('}' :: rest))) hfv rfl
      simp only [hv]
      rw [if_pos (show headIs ','
          (skipWs (',' :: (stringifyFields (JObj.cons k2 w t2) ++ ('}' :: rest)))) = true
          from rfl),
        show (skipWs (',' :: (stringifyFields (JObj.cons k2 w t2) ++ ('}' :: rest)))).tail =
          stringifyFields (JObj.cons k2 w t2) ++ ('}' :: rest) from rfl,
        rtFields (.cons k2 w t2) f rest (by simp) (by simp only [fneedObj] at hf ⊢; omega)]
      rfl

end

/-- `JSON.parse` inverts `JSON.stringify` on the modelled value domain. -/
theorem jsonParse_stringify (v : JVal) : jsonParse (stringify v) = some v := by
  have hb := fneed_le v
  have h := rtVal v (2 * (stringify v).length + 2) [] (by omega) (by decide)
  rw [List.append_nil] at h
  rw [jsonParse]
  simp only [h]
  rfl

theorem dropWhile_append_left (P : Char → Bool) :
    ∀ (a b : List Char), a.dropWhile P ≠ [] →
      (a ++ b).dropWhile P = a.dropWhile P ++ b := by
  intro a
  induction a with
  | nil => intro b h; exact absurd rfl h
  | cons c cs ih =>
    intro b h
    by_cases hc : P c = true
    · rw [List.dropWhile_cons_of_pos hc] at h
      rw [List.cons_append, List.dropWhile_cons_of_pos hc,
        List.dropWhile_cons_of_pos hc, ih b h]
    · have hc2 : P c = false := by simpa using hc
      rw [List.cons_append, List.dropWhile_cons_of_neg (by simp [hc2]),
        List.dropWhile_cons_of_neg (by simp [hc2]), List.cons_append]

theorem dropWhile_append_nil (P : Char → Bool) :
    ∀ (a b : List Char), a.dropWhile P = [] →
      (a ++ b).dropWhile P = b.dropWhile P := by
  intro a
  induction a with
  | nil => intro b _; rfl
  | cons c cs ih =>
    intro b h
    by_cases hc : P c = true
    · rw [List.dropWhile_cons_of_pos hc] at h
      rw [List.cons_append, List.dropWhile_cons_of_pos hc, ih b h]
    · rw [List.dropWhile_cons_of_neg (by simpa using hc)] at h
      exact absurd h (by simp)

/-- Inside the payload there is no premature match of the ` name:cmd:gdbjs>`
tail, because the payload contains no `:cmd:gdbjs>` and the literal has no
space after position 0. -/
theorem cmdEnd_inside (c : Char) (m' x : List Char)
    (hsub : hasSub ":cmd:gdbjs>".data (c :: m') = false) :
    cmdEnd ((c :: m') ++ (' ' :: x)) = false := by
  have hsub' : hasSub ":cmd:gdbjs>".data m' = false := by
    rw [hasSub, Bool.or_eq_false_iff] at hsub
    exact hsub.2
  rw [List.cons_append, cmdEnd]
  have hb : beginsWith ":cmd:gdbjs>".data ((m' ++ (' ' :: x)).dropWhile nameChar) = false := by
    by_cases hemp : m'.dropWhile nameChar = []
    · rw [dropWhile_append_nil nameChar m' (' ' :: x) hemp]
      rfl
    · rw [dropWhile_append_left nameChar m' (' ' :: x) hemp]
      apply no_begins_inside ":cmd:gdbjs>".data ' ' x (by decide)
        (m'.dropWhile nameChar) hemp
      exact hasSub_false_append_right ":cmd:gdbjs>".data (m'.takeWhile nameChar)
        (m'.dropWhile nameChar)
        (by rw [List.takeWhile_append_dropWhile]; exact hsub')
  rw [hb]
  simp

/-- At the true end of the payload the tail pattern does match. -/
theorem cmdEnd_at_end (name : List Char) (hn : name ≠ [])
    (hnc : ∀ c ∈ name, nameChar c = true) :
    cmdEnd (' ' :: (name ++ ":cmd:gdbjs>".data)) = true := by
  rw [cmdEnd]
  obtain ⟨htake, hdrop⟩ :=
    takeWhile_append_of_sat nameChar name hnc ':' "cmd:gdbjs>".data (by decide)
  rw [show name ++ ":cmd:gdbjs>".data = name ++ ':' :: "cmd:gdbjs>".data from rfl,
    htake, hdrop]
  have hbw : beginsWith ":cmd:gdbjs>".data (':' :: "cmd:gdbjs>".data) = true := by
    have := beginsWith_append_self ":cmd:gdbjs>".data []
    rw [List.append_nil] at this
    exact this
  rw [hbw]
  simp [hn]

/-- The lazy capture group stops exactly at the payload boundary. -/
theorem lazyCapture_clean :
    ∀ (m : List Char) (fuel : Nat) (acc : List Char) (x : List Char),
      m.length ≤ fuel →
      hasSub ":cmd:gdbjs>".data m = false →
      (∀ c ∈ m, c ≠ '\n' ∧ c ≠ '\r') →
      cmdEnd (' ' :: x) = true →
      lazyCapture fuel acc (m ++ (' ' :: x)) = some (acc.reverse ++ m) := by
  intro m
  induction m with
  | nil =>
    intro fuel acc x _ _ _ hend
    cases fuel with
    | zero => rw [List.nil_append, lazyCapture, if_pos hend, List.append_nil]
    | succ f => rw [List.nil_append, lazyCapture, if_pos hend, List.append_nil]
  | cons c m' ih =>
    intro fuel acc x hfuel hsub hnl hend
    obtain ⟨f, rfl⟩ : ∃ f, fuel = f + 1 := ⟨fuel - 1, by simp at hfuel; omega⟩
    have hcend : cmdEnd (c :: (m' ++ (' ' :: x))) = false := by
      rw [← List.cons_append]
      exact cmdEnd_inside c m' x hsub
    have hc := hnl c (by simp)
    have hsub' : hasSub ":cmd:gdbjs>".data m' = false := by
      rw [hasSub, Bool.or_eq_false_iff] at hsub
      exact hsub.2
    rw [List.cons_append, lazyCapture, if_neg (by simp [hcend]),
      if_neg (by simp [hc.1, hc.2]),
      ih f (c :: acc) x (by simp at hfuel; omega) hsub'
        (fun d hd => hnl d (by simp [hd])) hend]
    simp

/-- The cmd-sentinel matcher applied at the start of a wrapped record captures
exactly the payload. -/
theorem cmdMatchAt_wrap (name payload : List Char) (hn : name ≠ [])
    (hnc : ∀ c ∈ name, nameChar c = true)
    (hsub : hasSub ":cmd:gdbjs>".data payload = false)
    (hnl : ∀ c ∈ payload, c ≠ '\n' ∧ c ≠ '\r') :
    cmdMatchAt (wrapCmd name payload) = some payload := by
  have hw : wrapCmd name payload =
      "<gdbjs:cmd:".data ++
        (name ++ (' ' :: (payload ++ (' ' :: (name ++ ":cmd:gdbjs>".data))))) := by
    rw [wrapCmd]
    simp [List.cons_append, List.append_assoc]
  rw [hw, cmdMatchAt,
    if_pos (beginsWith_append_self "<gdbjs:cmd:".data _)]
  rw [show (11 : Nat) = ("<gdbjs:cmd:".data).length from rfl, List.drop_left]
  obtain ⟨htake, hdrop⟩ := takeWhile_append_of_sat nameChar name hnc ' '
    (payload ++ (' ' :: (name ++ ":cmd:gdbjs>".data))) (by decide)
  simp only [htake, hdrop]
  rw [if_neg (by simp [hn]), if_pos (show headIs ' '
    (' ' :: (payload ++ (' ' :: (name ++ ":cmd:gdbjs>".data)))) = true from rfl)]
  rw [show (' ' :: (payload ++ (' ' :: (name ++ ":cmd:gdbjs>".data)))).tail =
    payload ++ (' ' :: (name ++ ":cmd:gdbjs>".data)) from rfl]
  rw [lazyCapture_clean payload _ [] (name ++ ":cmd:gdbjs>".data)
    (by simp only [List.length_append, List.length_cons]; omega) hsub hnl
    (cmdEnd_at_end name hn hnc)]
  rfl

/-- `exec` at the leftmost position: a match at the very start wins. -/
theorem cmdExtract_begins (l : List Char) (g : List Char) (hne : l ≠ [])
    (hm : cmdMatchAt l = some g) : cmdExtract l = some g := by
  cases l with
  | nil => exact absurd rfl hne
  | cons c r =>
    rw [cmdExtract]
    simp only [hm]

/-- C4: Round-trip — JSON-encoding a value, wrapping it in the cmd-sentinel
line `<gdbjs:cmd:<name> <json> <name>:cmd:gdbjs>` exactly as the Python
`BaseCommand.invoke` format string does, and decoding that console record with
the CLI output decoder (leftmost regex extraction followed by `JSON.parse`)
reproduces the original value, for every command name drawn from `[a-z-]+` and
every value whose JSON text does not contain the sentinel delimiter token
`:cmd:gdbjs>`. -/
theorem C4_roundtrip (v : JVal) (name : List Char) (hn : name ≠ [])
    (hnc : ∀ c ∈ name, nameChar c = true)
    (hsub : hasSub ":cmd:gdbjs>".data (stringify v) = false) :
    decodeCmdRecord (wrapCmd name (stringify v)) = some v := by
  have hne : wrapCmd name (stringify v) ≠ [] := by
    rw [wrapCmd]
    intro h
    have hl := congrArg List.length h
    simp only [List.length_append, List.length_cons, List.length_nil,
      show ("<gdbjs:cmd:".data).length = 11 from rfl] at hl
    omega
  have hm := cmdMatchAt_wrap name (stringify v) hn hnc hsub (stringify_noNL v)
  rw [decodeCmdRecord]
  simp only [cmdExtract_begins _ _ hne hm]
  exact jsonParse_stringify v

/-- Concrete instance of `C4_roundtrip`: the stringified singleton object
mapping key `a` to `true`, wrapped under command name `pid`, decodes back to
the original object. -/
theorem C4_roundtrip_witness :
    ("pid".data ≠ [] ∧ (∀ c ∈ "pid".data, nameChar c = true) ∧
      hasSub ":cmd:gdbjs>".data
        (stringify (JVal.obj (.cons "a".data (.bool true) .nil))) = false) ∧
    decodeCmdRecord (wrapCmd "pid".data
        (stringify (JVal.obj (.cons "a".data (.bool true) .nil)))) =
      some (JVal.obj (.cons "a".data (.bool true) .nil)) :=
  ⟨⟨by decide, by decide, by decide⟩,
    C4_roundtrip (JVal.obj (.cons "a".data (.bool true) .nil)) "pid".data
      (by decide) (by decide) (by decide)⟩

end Gdb
